import Mathlib

/-!
# Verification of the pysweep swept-rule CUDA kernels (`src/sweep/sweep.h`)

This file gives a shallow embedding of the device code in `src/sweep/sweep.h`
(the swept-rule tiling kernels `UpPyramid`, `Octahedron`, `DownPyramid` and
their helpers `get_sgid`, `get_gid`, `edge_comm`, `shared_state_zero`) and
proves properties of that embedding.

Modelling conventions:
* Machine `int` values that are only ever nonnegative indices are modelled as
  `Nat`; the swept-region bounds, which the source decrements below zero, are
  modelled as `Int`.
* Array cells hold `Int` values (the numerical payload of the `float` cells is
  never computed on by the code under study, only moved, so the value type is
  irrelevant; an integer payload keeps everything decidable).
* A buffer (`float*`) is a total function `Nat → Int` from flat offsets.
* One kernel invocation of one block (tile-processing group) is embedded as an
  explicit state transformer.  Lockstep barrier-separated phases are
  sequentialised: each phase is a list of (address, value) writes applied in
  order.  Within one barrier-separated phase the threads of a block write
  pairwise distinct addresses (proved where it matters), so the
  sequentialisation agrees with the lockstep execution.
* The device constants `SGIDS`, `VARS`, `TIMES`, `OPS`, `NV`, `MPSS` and the
  launch geometry `blockDim`/`gridDim` are fields of a configuration record,
  fixed for a run, exactly as the `__constant__` memory of the source.
* The per-cell update `step` (defined in `euler.h`, outside this repository)
  is an opaque parameter.  Per the external-interface contract it writes the
  `NV` variable slots of the calling cell only; the embedding makes that
  footprint explicit.
-/

/-- A flat buffer of cells (`float *` in the source). -/
def Buf : Type := Nat → Int

/-- A single store `buf[i] = v`. -/
def writeB (s : Buf) (i : Nat) (v : Int) : Buf :=
  fun j => if j = i then v else s j

/-- Apply a list of (address, value) stores left to right (program order). -/
def applyWrites (ws : List (Nat × Int)) (s : Buf) : Buf :=
  ws.foldl (fun s w => writeB s w.1 w.2) s

theorem applyWrites_nil (s : Buf) : applyWrites [] s = s := rfl

theorem applyWrites_cons (w : Nat × Int) (ws : List (Nat × Int)) (s : Buf) :
    applyWrites (w :: ws) s = applyWrites ws (writeB s w.1 w.2) := rfl

theorem writeB_self (s : Buf) (i : Nat) (v : Int) : writeB s i v i = v := by
  simp [writeB]

theorem writeB_other (s : Buf) (i : Nat) (v : Int) (j : Nat) (h : j ≠ i) :
    writeB s i v j = s j := by
  simp [writeB, h]

/-- An address no write in the list touches is left unchanged. -/
theorem applyWrites_not_mem (ws : List (Nat × Int)) (s : Buf) (a : Nat)
    (h : ∀ w ∈ ws, w.1 ≠ a) : applyWrites ws s a = s a := by
  induction ws generalizing s with
  | nil => rfl
  | cons w ws ih =>
    rw [applyWrites_cons, ih _ (fun w' hw' => h w' (List.mem_cons_of_mem _ hw'))]
    exact writeB_other _ _ _ _ (fun hc => h w (List.mem_cons_self _ _) hc.symm)

/-- The value at an address after a write list: either untouched, or the value
of one of the writes to that address. -/
theorem applyWrites_cases (ws : List (Nat × Int)) (s : Buf) (a : Nat) :
    applyWrites ws s a = s a ∨
      ∃ w ∈ ws, w.1 = a ∧ applyWrites ws s a = w.2 := by
  induction ws generalizing s with
  | nil => exact Or.inl rfl
  | cons w ws ih =>
    rw [applyWrites_cons]
    rcases ih (writeB s w.1 w.2) with h | ⟨w', hw', ha, hv⟩
    · by_cases hc : a = w.1
      · refine Or.inr ⟨w, List.mem_cons_self _ _, hc.symm, ?_⟩
        rw [h, hc, writeB_self]
      · exact Or.inl (by rw [h, writeB_other _ _ _ _ hc])
    · exact Or.inr ⟨w', List.mem_cons_of_mem _ hw', ha, hv⟩

/-- If some write stores `v` at `a` and every write to `a` in the list stores
`v`, the final value at `a` is `v` (covers benign duplicate writes). -/
theorem applyWrites_mem_agree (ws : List (Nat × Int)) (s : Buf) (a : Nat)
    (v : Int) (hmem : (a, v) ∈ ws)
    (hagree : ∀ w ∈ ws, w.1 = a → w.2 = v) :
    applyWrites ws s a = v := by
  induction ws generalizing s with
  | nil => exact absurd hmem (List.not_mem_nil _)
  | cons w ws ih =>
    rw [applyWrites_cons]
    rcases List.mem_cons.1 hmem with heq | hmem'
    · rcases applyWrites_cases ws (writeB s w.1 w.2) a with h | ⟨w', hw', ha', hv'⟩
      · rw [h, ← heq, writeB_self]
      · rw [hv']
        exact hagree w' (List.mem_cons_of_mem _ hw') ha'
    · exact ih _ hmem' (fun w' hw' => hagree w' (List.mem_cons_of_mem _ hw'))

/-- A write list each of whose stores writes back the value already present
leaves the buffer unchanged at every address. -/
theorem applyWrites_id (ws : List (Nat × Int)) (s : Buf)
    (h : ∀ w ∈ ws, w.2 = s w.1) : ∀ a, applyWrites ws s a = s a := by
  induction ws generalizing s with
  | nil => intro a; rfl
  | cons w ws ih =>
    intro a
    rw [applyWrites_cons]
    have hw : writeB s w.1 w.2 = s := by
      funext j
      by_cases hj : j = w.1
      · rw [hj, writeB_self, h w (List.mem_cons_self _ _)]
      · exact writeB_other _ _ _ _ hj
    rw [hw]
    exact ih s (fun w' hw' => h w' (List.mem_cons_of_mem _ hw')) a

/-! ## Configuration and index mapping

Source constants (`sweep.h` lines 14-26): `SGIDS` (per-variable stride in the
tile buffer), `VARS` (per-variable stride in global memory), `TIMES`
(per-time-level stride in global memory), `MPSS` (max pyramid swept steps),
`NV` (number of variables), `OPS` (stencil radius / number of ghost rings),
plus the launch geometry `blockDim = (bw, bh)` and `gridDim = (gx, gy)`. -/

structure Cfg where
  bw : Nat
  bh : Nat
  gx : Nat
  gy : Nat
  OPS : Nat
  NV : Nat
  MPSS : Nat
  SGIDS : Nat
  VARS : Nat
  TIMES : Nat

namespace Sweep

/-- `M = gridDim.y*blockDim.y + 2*OPS`, "Major y axis length"
(`sweep.h` lines 49, 61, 75, 125). -/
def Mlen (c : Cfg) : Nat := c.gy * c.bh + 2 * c.OPS

/-- The matching x-axis extent of the global plane,
`gridDim.x*blockDim.x + 2*OPS`. -/
def Mxlen (c : Cfg) : Nat := c.gx * c.bw + 2 * c.OPS

/-- `getGlobalIdx_2D_2D` (`sweep.h` lines 30-35):
`blockId*(blockDim.x*blockDim.y) + threadIdx.y*blockDim.x + threadIdx.x`
with `blockId = blockIdx.x + blockIdx.y*gridDim.x`. -/
def getGlobalIdx_2D_2D (c : Cfg) (bix biy tx ty : Nat) : Nat :=
  (bix + biy * c.gx) * (c.bw * c.bh) + ty * c.bw + tx

/-- `get_sgid` (`sweep.h` lines 38-41):
`tidy + (blockDim.y + 2*OPS)*tidx`. -/
def get_sgid (c : Cfg) (tidx tidy : Nat) : Nat :=
  tidy + (c.bh + 2 * c.OPS) * tidx

/-- `get_gid` (`sweep.h` lines 46-51):
`M*(OPS+threadIdx.x) + OPS + threadIdx.y + blockDim.y*blockIdx.y
 + blockDim.x*blockIdx.x*M`. -/
def get_gid (c : Cfg) (bix biy tx ty : Nat) : Nat :=
  Mlen c * (c.OPS + tx) + c.OPS + ty + c.bh * biy + c.bw * bix * Mlen c

/-- Tile-buffer address of variable `j` at halo-padded tile coordinate
`(x, y)`: `get_sgid x y + j*SGIDS`, the shape every shared-memory access in
the source takes. -/
def saddr (c : Cfg) (x y j : Nat) : Nat := get_sgid c x y + j * c.SGIDS

/-- Global-array address of variable `v` of cell `(x, y)` (halo-padded global
coordinates) at time level `t`.  Every global access in the source has this
shape once the block offsets are folded into `(x, y)`. -/
def addr (c : Cfg) (x y v t : Nat) : Nat :=
  Mlen c * x + y + v * c.VARS + t * c.TIMES

/-- The stride invariants the host orchestration establishes before launch
(spec section 6: "flat buffer of size gridW*gridH*#vars*#levels, row-major in
x then y, variables and time levels as outer strides"; `SGIDS` is the area of
one halo-padded tile plane). -/
structure GoodCfg (c : Cfg) : Prop where
  hV : c.VARS = Mlen c * Mxlen c
  hT : c.TIMES = c.NV * c.VARS
  hS : c.SGIDS = (c.bw + 2 * c.OPS) * (c.bh + 2 * c.OPS)

/-- Base-decomposition uniqueness: quotient and remainder below the base are
determined. -/
theorem mulAdd_inj (B q1 r1 q2 r2 : Nat) (h1 : r1 < B) (h2 : r2 < B)
    (h : B * q1 + r1 = B * q2 + r2) : q1 = q2 ∧ r1 = r2 := by
  have hB : 0 < B := Nat.pos_of_ne_zero (by rintro rfl; exact absurd h1 (Nat.not_lt_zero _))
  have hq : q1 = q2 := by
    have e1 : (B * q1 + r1) / B = q1 := by
      rw [Nat.mul_add_div hB, Nat.div_eq_of_lt h1]; omega
    have e2 : (B * q2 + r2) / B = q2 := by
      rw [Nat.mul_add_div hB, Nat.div_eq_of_lt h2]; omega
    rw [← e1, ← e2, h]
  exact ⟨hq, by subst hq; omega⟩

/-- `get_gid` rewritten as a global `(x, y)` address: the thread `(tx, ty)` of
block `(bix, biy)` owns global cell `(OPS + tx + bw*bix, OPS + ty + bh*biy)`. -/
theorem get_gid_eq_addr (c : Cfg) (bix biy tx ty j t : Nat) :
    get_gid c bix biy tx ty + j * c.VARS + t * c.TIMES =
      addr c (c.OPS + tx + c.bw * bix) (c.OPS + ty + c.bh * biy) j t := by
  unfold get_gid addr
  ring

/-- The owned global x-coordinate is in range. -/
theorem gidx_lt (c : Cfg) (bix tx : Nat) (hb : bix < c.gx) (ht : tx < c.bw) :
    c.OPS + tx + c.bw * bix < Mxlen c := by
  have hd : c.bw * (bix + 1) = c.bw * bix + c.bw := by ring
  have h2 : c.bw * (bix + 1) ≤ c.bw * c.gx :=
    Nat.mul_le_mul_left c.bw (Nat.succ_le_of_lt hb)
  have h3 : c.bw * c.gx = c.gx * c.bw := Nat.mul_comm _ _
  unfold Mxlen
  omega

/-- The owned global y-coordinate is in range. -/
theorem gidy_lt (c : Cfg) (biy ty : Nat) (hb : biy < c.gy) (ht : ty < c.bh) :
    c.OPS + ty + c.bh * biy < Mlen c := by
  have hd : c.bh * (biy + 1) = c.bh * biy + c.bh := by ring
  have h2 : c.bh * (biy + 1) ≤ c.bh * c.gy :=
    Nat.mul_le_mul_left c.bh (Nat.succ_le_of_lt hb)
  have h3 : c.bh * c.gy = c.gy * c.bh := Nat.mul_comm _ _
  unfold Mlen
  omega

/-- Injectivity of the global layout: distinct in-range `(x, y, v, t)`
quadruples have distinct flat offsets. -/
theorem addr_inj (c : Cfg) (hc : GoodCfg c) {x y v t x' y' v' t' : Nat}
    (hx : x < Mxlen c) (hy : y < Mlen c) (hv : v < c.NV)
    (hx' : x' < Mxlen c) (hy' : y' < Mlen c) (hv' : v' < c.NV)
    (h : addr c x y v t = addr c x' y' v' t') :
    x = x' ∧ y = y' ∧ v = v' ∧ t = t' := by
  have hMpos : 0 < Mlen c := Nat.pos_of_ne_zero (by
    rintro h0; rw [h0] at hy; exact absurd hy (Nat.not_lt_zero _))
  have hVpos : Mlen c * x + y < c.VARS := by
    rw [hc.hV]
    calc Mlen c * x + y < Mlen c * x + Mlen c := by omega
    _ = Mlen c * (x + 1) := by ring
    _ ≤ Mlen c * Mxlen c := Nat.mul_le_mul_left _ hx
  have hVpos' : Mlen c * x' + y' < c.VARS := by
    rw [hc.hV]
    calc Mlen c * x' + y' < Mlen c * x' + Mlen c := by omega
    _ = Mlen c * (x' + 1) := by ring
    _ ≤ Mlen c * Mxlen c := Nat.mul_le_mul_left _ hx'
  have hre : addr c x y v t =
      c.VARS * (v + c.NV * t) + (Mlen c * x + y) := by
    unfold addr; rw [hc.hT]; ring
  have hre' : addr c x' y' v' t' =
      c.VARS * (v' + c.NV * t') + (Mlen c * x' + y') := by
    unfold addr; rw [hc.hT]; ring
  rw [hre, hre'] at h
  obtain ⟨hq, hr⟩ := mulAdd_inj _ _ _ _ _ hVpos hVpos' h
  obtain ⟨ht2, hv2⟩ := mulAdd_inj c.NV t v t' v' hv hv' (by omega)
  obtain ⟨hx2, hy2⟩ := mulAdd_inj (Mlen c) x y x' y' hy hy' hr
  exact ⟨hx2, hy2, hv2, ht2⟩

/-- Injectivity of the tile-buffer layout. -/
theorem saddr_inj (c : Cfg) (hc : GoodCfg c) {x y j x' y' j' : Nat}
    (hx : x < c.bw + 2 * c.OPS) (hy : y < c.bh + 2 * c.OPS) (hj : j < c.NV)
    (hx' : x' < c.bw + 2 * c.OPS) (hy' : y' < c.bh + 2 * c.OPS) (hj' : j' < c.NV)
    (h : saddr c x y j = saddr c x' y' j') :
    x = x' ∧ y = y' ∧ j = j' := by
  have hSre : saddr c x y j =
      c.SGIDS * j + ((c.bh + 2 * c.OPS) * x + y) := by
    unfold saddr get_sgid; ring
  have hSre' : saddr c x' y' j' =
      c.SGIDS * j' + ((c.bh + 2 * c.OPS) * x' + y') := by
    unfold saddr get_sgid; ring
  have hlt : (c.bh + 2 * c.OPS) * x + y < c.SGIDS := by
    rw [hc.hS, Nat.mul_comm (c.bw + 2 * c.OPS)]
    calc (c.bh + 2 * c.OPS) * x + y < (c.bh + 2 * c.OPS) * (x + 1) := by
          have : 0 < c.bh + 2 * c.OPS := by omega
          ring_nf; omega
    _ ≤ (c.bh + 2 * c.OPS) * (c.bw + 2 * c.OPS) := Nat.mul_le_mul_left _ hx
  have hlt' : (c.bh + 2 * c.OPS) * x' + y' < c.SGIDS := by
    rw [hc.hS, Nat.mul_comm (c.bw + 2 * c.OPS)]
    calc (c.bh + 2 * c.OPS) * x' + y' < (c.bh + 2 * c.OPS) * (x' + 1) := by
          have : 0 < c.bh + 2 * c.OPS := by omega
          ring_nf; omega
    _ ≤ (c.bh + 2 * c.OPS) * (c.bw + 2 * c.OPS) := Nat.mul_le_mul_left _ hx'
  rw [hSre, hSre'] at h
  obtain ⟨hj2, hr⟩ := mulAdd_inj c.SGIDS j _ j' _ hlt hlt' h
  obtain ⟨hx2, hy2⟩ := mulAdd_inj (c.bh + 2 * c.OPS) x y x' y' hy hy' hr
  exact ⟨hx2, hy2, hj2⟩

end Sweep

namespace Sweep

/-! ## Threads of one block and the linearised thread id -/

/-- The `(threadIdx.x, threadIdx.y)` pairs of one tile-processing group. -/
def threads (c : Cfg) : List (Nat × Nat) :=
  (List.range c.bw).flatMap fun tx => (List.range c.bh).map fun ty => (tx, ty)

theorem mem_threads (c : Cfg) (th : Nat × Nat) :
    th ∈ threads c ↔ th.1 < c.bw ∧ th.2 < c.bh := by
  constructor
  · intro h
    rcases List.mem_flatMap.1 h with ⟨tx, htx, h2⟩
    rcases List.mem_map.1 h2 with ⟨ty, hty, heq⟩
    cases heq
    exact ⟨List.mem_range.1 htx, List.mem_range.1 hty⟩
  · intro ⟨h1, h2⟩
    exact List.mem_flatMap.2 ⟨th.1, List.mem_range.2 h1,
      List.mem_map.2 ⟨th.2, List.mem_range.2 h2, Prod.mk.eta⟩⟩

/-- `tgid = getGlobalIdx_2D_2D() % (blockDim.x*blockDim.y)`
(`sweep.h` lines 76, 126). -/
def tgid (c : Cfg) (bix biy tx ty : Nat) : Nat :=
  getGlobalIdx_2D_2D c bix biy tx ty % (c.bw * c.bh)

/-- Inside a block the linearised thread id is `ty*blockDim.x + tx`. -/
theorem tgid_eq (c : Cfg) (bix biy tx ty : Nat)
    (htx : tx < c.bw) (hty : ty < c.bh) :
    tgid c bix biy tx ty = ty * c.bw + tx := by
  have hbw : 0 < c.bw := by omega
  have hr : ty * c.bw + tx < c.bw * c.bh := by
    have h1 : (ty + 1) * c.bw ≤ c.bh * c.bw :=
      Nat.mul_le_mul_right c.bw (Nat.succ_le_of_lt hty)
    have h2 : (ty + 1) * c.bw = ty * c.bw + c.bw := by ring
    have h3 : c.bh * c.bw = c.bw * c.bh := Nat.mul_comm _ _
    omega
  unfold tgid getGlobalIdx_2D_2D
  rw [Nat.add_assoc, Nat.add_comm ((bix + biy * c.gx) * (c.bw * c.bh)),
    Nat.add_mul_mod_self_right, Nat.mod_eq_of_lt hr]

/-- Every linearised id below `blockDim.x*blockDim.y` is realised by exactly
one thread of the block. -/
theorem exists_thread_of_tgid (c : Cfg) (bix biy t : Nat)
    (ht : t < c.bw * c.bh) :
    ∃ th ∈ threads c, tgid c bix biy th.1 th.2 = t := by
  have hbw : 0 < c.bw := by
    rcases Nat.eq_zero_or_pos c.bw with h | h
    · rw [h] at ht; omega
    · exact h
  refine ⟨(t % c.bw, t / c.bw), ?_, ?_⟩
  · rw [mem_threads]
    exact ⟨Nat.mod_lt _ hbw, (Nat.div_lt_iff_lt_mul hbw).2 (by
      rw [Nat.mul_comm] at ht; exact ht)⟩
  · rw [tgid_eq c bix biy _ _ (Nat.mod_lt _ hbw)
      ((Nat.div_lt_iff_lt_mul hbw).2 (by rw [Nat.mul_comm] at ht; exact ht))]
    have := Nat.div_add_mod t c.bw
    have h2 : t / c.bw * c.bw = c.bw * (t / c.bw) := Nat.mul_comm _ _
    omega

/-! ## `shared_state_zero` (`sweep.h` lines 122-144)

Each thread with linearised id `tgid < blockDim.y + 2*OPS` zeroes the whole
row band `y = tgid` of the tile buffer: all `x = i < blockDim.x + 2*OPS` and
all variables `j < NV`; a trailing `__syncthreads()` closes the phase. -/

/-- The stores of the thread with linearised id `t`. -/
def sszThreadWrites (c : Cfg) (t : Nat) : List (Nat × Int) :=
  if t < c.bh + 2 * c.OPS then
    (List.range (c.bw + 2 * c.OPS)).flatMap fun i =>
      (List.range c.NV).map fun j =>
        (t + i * (c.bh + 2 * c.OPS) + j * c.SGIDS, (0 : Int))
  else []

/-- `shared_state_zero`: all threads' stores, then the barrier. -/
def shared_state_zero (c : Cfg) (bix biy : Nat) (shared : Buf) : Buf :=
  applyWrites ((threads c).flatMap fun th =>
    sszThreadWrites c (tgid c bix biy th.1 th.2)) shared

/-- After `shared_state_zero`, every variable slot of every halo-padded tile
cell is zero, provided the block has at least `blockDim.y + 2*OPS` threads
(the row band that does the zeroing). -/
theorem ssz_val (c : Cfg) (bix biy : Nat) (shared : Buf)
    (hthr : c.bh + 2 * c.OPS ≤ c.bw * c.bh)
    {x y v : Nat} (hx : x < c.bw + 2 * c.OPS) (hy : y < c.bh + 2 * c.OPS)
    (hv : v < c.NV) :
    shared_state_zero c bix biy shared (saddr c x y v) = 0 := by
  apply applyWrites_mem_agree
  · -- membership: the thread with linearised id `y` writes this slot at `i = x`
    obtain ⟨th, hth, htg⟩ := exists_thread_of_tgid c bix biy y (by omega)
    refine List.mem_flatMap.2 ⟨th, hth, ?_⟩
    rw [htg]
    unfold sszThreadWrites
    rw [if_pos hy]
    refine List.mem_flatMap.2 ⟨x, List.mem_range.2 hx, ?_⟩
    refine List.mem_map.2 ⟨v, List.mem_range.2 hv, ?_⟩
    unfold saddr get_sgid
    congr 1
    ring
  · -- agreement: every store of this phase stores zero
    intro w hw _
    rcases List.mem_flatMap.1 hw with ⟨th, _, hw2⟩
    unfold sszThreadWrites at hw2
    by_cases hp : tgid c bix biy th.1 th.2 < c.bh + 2 * c.OPS
    · rw [if_pos hp] at hw2
      rcases List.mem_flatMap.1 hw2 with ⟨i, _, hw3⟩
      rcases List.mem_map.1 hw3 with ⟨j, _, heq⟩
      rw [← heq]
    · rw [if_neg hp] at hw2
      exact absurd hw2 (List.not_mem_nil _)

end Sweep

namespace Sweep

/-! ## `edge_comm` (`sweep.h` lines 72-117)

`gid = tgid + blockIdx.y*blockDim.y + blockDim.x*blockIdx.x*M`; each thread
with `tgid < blockDim.y + 2*OPS` copies, for every variable `j`:
* front edge: columns `i = 0 .. OPS-1`,
* back edge: columns `i = blockDim.x+OPS .. blockDim.x+2*OPS-1`,
* and, when `tgid < OPS || blockDim.x+OPS <= tgid`, all columns
  `i = 0 .. blockDim.x+2*OPS-1`,
from `state[gid + i*M + j*VARS + curr_time*TIMES]` into
`shared_state[tgid + i*(blockDim.y+2*OPS) + j*SGIDS]`, then all threads
barrier.  (`TWO*OPS` is the float constant 2 times the int `OPS`, exact.) -/

/-- `gid` as computed at `sweep.h` line 77. -/
def egid (c : Cfg) (bix biy t : Nat) : Nat :=
  t + biy * c.bh + c.bw * bix * Mlen c

/-- One participating thread's stores in `edge_comm`. -/
def edgeThreadWrites (c : Cfg) (bix biy ct t : Nat) (state : Buf) :
    List (Nat × Int) :=
  if t < c.bh + 2 * c.OPS then
    ((List.range c.OPS).flatMap fun i =>
      (List.range c.NV).map fun j =>
        (t + i * (c.bh + 2 * c.OPS) + j * c.SGIDS,
         state (egid c bix biy t + i * Mlen c + j * c.VARS + ct * c.TIMES)))
    ++ ((List.range c.OPS).flatMap fun i0 =>
      (List.range c.NV).map fun j =>
        (t + (c.bw + c.OPS + i0) * (c.bh + 2 * c.OPS) + j * c.SGIDS,
         state (egid c bix biy t + (c.bw + c.OPS + i0) * Mlen c + j * c.VARS
           + ct * c.TIMES)))
    ++ (if t < c.OPS ∨ c.bw + c.OPS ≤ t then
        (List.range (c.bw + 2 * c.OPS)).flatMap fun i =>
          (List.range c.NV).map fun j =>
            (t + i * (c.bh + 2 * c.OPS) + j * c.SGIDS,
             state (egid c bix biy t + i * Mlen c + j * c.VARS + ct * c.TIMES))
       else [])
  else []

/-- `edge_comm(shared_state, state, curr_time)`. -/
def edge_comm (c : Cfg) (bix biy : Nat) (shared state : Buf) (ct : Nat) :
    Buf :=
  applyWrites ((threads c).flatMap fun th =>
    edgeThreadWrites c bix biy ct (tgid c bix biy th.1 th.2) state) shared

/-- Every store of `edge_comm` has the canonical column/row/variable shape. -/
theorem edgeThreadWrites_shape (c : Cfg) (bix biy ct t : Nat) (state : Buf)
    (w : Nat × Int) (hw : w ∈ edgeThreadWrites c bix biy ct t state) :
    ∃ i j, i < c.bw + 2 * c.OPS ∧ j < c.NV ∧ t < c.bh + 2 * c.OPS ∧
      w = (t + i * (c.bh + 2 * c.OPS) + j * c.SGIDS,
        state (egid c bix biy t + i * Mlen c + j * c.VARS + ct * c.TIMES)) := by
  unfold edgeThreadWrites at hw
  by_cases hp : t < c.bh + 2 * c.OPS
  · rw [if_pos hp] at hw
    rcases List.mem_append.1 hw with hw12 | hw3
    · rcases List.mem_append.1 hw12 with hw1 | hw2
      · rcases List.mem_flatMap.1 hw1 with ⟨i, hi, hwm⟩
        rcases List.mem_map.1 hwm with ⟨j, hj, heq⟩
        refine ⟨i, j, ?_, List.mem_range.1 hj, hp, heq.symm⟩
        have := List.mem_range.1 hi
        omega
      · rcases List.mem_flatMap.1 hw2 with ⟨i0, hi0, hwm⟩
        rcases List.mem_map.1 hwm with ⟨j, hj, heq⟩
        refine ⟨c.bw + c.OPS + i0, j, ?_, List.mem_range.1 hj, hp, heq.symm⟩
        have := List.mem_range.1 hi0
        omega
    · by_cases hcor : t < c.OPS ∨ c.bw + c.OPS ≤ t
      · rw [if_pos hcor] at hw3
        rcases List.mem_flatMap.1 hw3 with ⟨i, hi, hwm⟩
        rcases List.mem_map.1 hwm with ⟨j, hj, heq⟩
        exact ⟨i, j, List.mem_range.1 hi, List.mem_range.1 hj, hp, heq.symm⟩
      · rw [if_neg hcor] at hw3
        exact absurd hw3 (List.not_mem_nil _)
  · rw [if_neg hp] at hw
    exact absurd hw (List.not_mem_nil _)

/-- The global offset read for column `i`, row `t` is the flat address of
global cell `(bw*bix + i, bh*biy + t)`, variable `j`, time `ct`. -/
theorem egid_eq_addr (c : Cfg) (bix biy t i j ct : Nat) :
    egid c bix biy t + i * Mlen c + j * c.VARS + ct * c.TIMES =
      addr c (c.bw * bix + i) (c.bh * biy + t) j ct := by
  unfold egid addr
  ring

end Sweep

namespace Sweep

/-- Halo correctness of `edge_comm` for square tiles: provided
`blockDim.x = blockDim.y` and the block has at least `blockDim.y + 2*OPS`
threads, every halo cell `(x, y)` of the tile buffer (within `OPS` of any
tile edge) holds, for every variable, the persisted global value of the
corresponding cell at the requested time level.

For non-square tiles this fails: the corner condition at `sweep.h` line 105
compares the y-position `tgid` against the x-extent `blockDim.x + OPS`
(see `C3_counterexample`). -/
theorem edge_comm_halo (c : Cfg) (hc : GoodCfg c) (hsq : c.bw = c.bh)
    (hthr : c.bh + 2 * c.OPS ≤ c.bw * c.bh)
    (bix biy : Nat) (shared state : Buf) (ct : Nat)
    {x y v : Nat} (hx : x < c.bw + 2 * c.OPS) (hy : y < c.bh + 2 * c.OPS)
    (hv : v < c.NV)
    (hHalo : x < c.OPS ∨ c.bw + c.OPS ≤ x ∨ y < c.OPS ∨ c.bh + c.OPS ≤ y) :
    edge_comm c bix biy shared state ct (saddr c x y v) =
      state (addr c (c.bw * bix + x) (c.bh * biy + y) v ct) := by
  apply applyWrites_mem_agree
  · -- membership: the thread with linearised id `y` copies column `x`
    obtain ⟨th, hth, htg⟩ := exists_thread_of_tgid c bix biy y (by omega)
    refine List.mem_flatMap.2 ⟨th, hth, ?_⟩
    rw [htg]
    unfold edgeThreadWrites
    rw [if_pos hy]
    have hpair : ∀ i, i = x →
        (y + i * (c.bh + 2 * c.OPS) + v * c.SGIDS,
          state (egid c bix biy y + i * Mlen c + v * c.VARS + ct * c.TIMES)) =
        (saddr c x y v,
          state (addr c (c.bw * bix + x) (c.bh * biy + y) v ct)) := by
      rintro i rfl
      rw [Prod.mk.injEq]
      constructor
      · unfold saddr get_sgid; ring
      · rw [egid_eq_addr]
    rcases hHalo with hfront | hrest
    · -- front-edge loop, i = x < OPS
      refine List.mem_append.2 (Or.inl (List.mem_append.2 (Or.inl ?_)))
      refine List.mem_flatMap.2 ⟨x, List.mem_range.2 hfront, ?_⟩
      exact List.mem_map.2 ⟨v, List.mem_range.2 hv, hpair x rfl⟩
    rcases hrest with hback | hcorner
    · -- back-edge loop, i = bw + OPS + (x - (bw + OPS))
      refine List.mem_append.2 (Or.inl (List.mem_append.2 (Or.inr ?_)))
      refine List.mem_flatMap.2 ⟨x - (c.bw + c.OPS), List.mem_range.2 (by omega), ?_⟩
      refine List.mem_map.2 ⟨v, List.mem_range.2 hv, ?_⟩
      exact hpair (c.bw + c.OPS + (x - (c.bw + c.OPS))) (by omega)
    · -- corner loop: y < OPS or (bh + OPS ≤ y, squareness turns the
      -- blockDim.x-based test into a blockDim.y-based one)
      refine List.mem_append.2 (Or.inr ?_)
      rw [if_pos (by omega : y < c.OPS ∨ c.bw + c.OPS ≤ y)]
      refine List.mem_flatMap.2 ⟨x, List.mem_range.2 hx, ?_⟩
      exact List.mem_map.2 ⟨v, List.mem_range.2 hv, hpair x rfl⟩
  · -- agreement: any store to this tile slot reads the same global cell
    intro w hw ha
    rcases List.mem_flatMap.1 hw with ⟨th, _, hwt⟩
    obtain ⟨i, j, hi, hj, ht, hweq⟩ :=
      edgeThreadWrites_shape c bix biy ct _ state w hwt
    have ha2 : saddr c i (tgid c bix biy th.1 th.2) j = saddr c x y v := by
      rw [← ha, hweq]
      unfold saddr get_sgid; ring
    obtain ⟨hix, hty, hjv⟩ := saddr_inj c hc hi ht hj hx hy hv ha2
    rw [hweq]
    rw [hix, hty, hjv, egid_eq_addr]

end Sweep

namespace Sweep

/-! ## Interior seeding

`for i < NV: shared_state[sgid + i*SGIDS] = state[gid + i*VARS (+ lvl*TIMES)]`
followed by `__syncthreads()` (`sweep.h` lines 172-176, 230-234, 272-276,
328-332); `lvl = 0` corresponds to the bare `state[gid + i*VARS]` read. -/

/-- The interior-copy stores of all threads of the block. -/
def interiorSeedWrites (c : Cfg) (bix biy lvl : Nat) (state : Buf) :
    List (Nat × Int) :=
  (threads c).flatMap fun th =>
    (List.range c.NV).map fun i =>
      (get_sgid c (th.1 + c.OPS) (th.2 + c.OPS) + i * c.SGIDS,
       state (get_gid c bix biy th.1 th.2 + i * c.VARS + lvl * c.TIMES))

/-- After the interior copy, the tile slot of thread `(tx, ty)`, variable `i`,
holds the global value of its owned cell at time level `lvl`. -/
theorem interiorSeed_val (c : Cfg) (hc : GoodCfg c) (bix biy lvl : Nat)
    (state shared : Buf) {tx ty i : Nat}
    (htx : tx < c.bw) (hty : ty < c.bh) (hi : i < c.NV) :
    applyWrites (interiorSeedWrites c bix biy lvl state) shared
        (saddr c (tx + c.OPS) (ty + c.OPS) i) =
      state (addr c (c.OPS + tx + c.bw * bix) (c.OPS + ty + c.bh * biy) i lvl) := by
  apply applyWrites_mem_agree
  · refine List.mem_flatMap.2 ⟨(tx, ty), (mem_threads c _).2 ⟨htx, hty⟩, ?_⟩
    refine List.mem_map.2 ⟨i, List.mem_range.2 hi, ?_⟩
    rw [Prod.mk.injEq]
    exact ⟨rfl, by rw [get_gid_eq_addr]⟩
  · intro w hw ha
    rcases List.mem_flatMap.1 hw with ⟨th, hth, hwm⟩
    rcases List.mem_map.1 hwm with ⟨i', hi', heq⟩
    obtain ⟨hth1, hth2⟩ := (mem_threads c th).1 hth
    have ha2 : saddr c (th.1 + c.OPS) (th.2 + c.OPS) i' =
        saddr c (tx + c.OPS) (ty + c.OPS) i := by
      rw [← ha, ← heq]; rfl
    obtain ⟨h1, h2, h3⟩ := saddr_inj c hc (by omega) (by omega)
      (List.mem_range.1 hi') (by omega) (by omega) hi ha2
    rw [← heq]
    have htt : th = (tx, ty) := Prod.ext (by omega) (by omega)
    rw [htt] at *
    rw [h3, get_gid_eq_addr]

/-- The interior copy leaves every non-interior (halo) tile slot unchanged. -/
theorem interiorSeed_pres (c : Cfg) (hc : GoodCfg c) (bix biy lvl : Nat)
    (state shared : Buf) {x y v : Nat}
    (hx : x < c.bw + 2 * c.OPS) (hy : y < c.bh + 2 * c.OPS) (hv : v < c.NV)
    (hout : x < c.OPS ∨ c.bw + c.OPS ≤ x ∨ y < c.OPS ∨ c.bh + c.OPS ≤ y) :
    applyWrites (interiorSeedWrites c bix biy lvl state) shared
        (saddr c x y v) = shared (saddr c x y v) := by
  apply applyWrites_not_mem
  intro w hw ha
  rcases List.mem_flatMap.1 hw with ⟨th, hth, hwm⟩
  rcases List.mem_map.1 hwm with ⟨i', hi', heq⟩
  obtain ⟨hth1, hth2⟩ := (mem_threads c th).1 hth
  have ha2 : saddr c (th.1 + c.OPS) (th.2 + c.OPS) i' = saddr c x y v := by
    rw [← ha, ← heq]; rfl
  obtain ⟨h1, h2, h3⟩ := saddr_inj c hc (by omega) (by omega)
    (List.mem_range.1 hi') hx hy hv ha2
  omega

end Sweep

namespace Sweep

/-! ## Swept-region bounds

`UpPyramid` (`sweep.h` lines 164-167, and 265-268 for the up half of
`Octahedron`) starts from the full tile interior and shrinks by `OPS` per
side per step (lines 196-200); the membership test is strict above
(`tidx < ux && tidx >= lx && tidy < uy && tidy >= ly`, line 181).

The down half (`sweep.h` lines 222-227 / 321-325) starts from
`lx = (blockDim.x+OPS)/TWO + 1 - OPS`, `ux = (blockDim.x+OPS)/TWO + OPS`
(and the same with `blockDim.y` for `ly`, `uy`) and grows by `OPS` per side
per step (lines 256-260); the membership test is inclusive
(`tidx <= ux && tidx >= lx && tidy <= uy && tidy >= ly`, line 240).

`TWO` is the float constant 2.0: the whole right-hand side is evaluated in
float arithmetic (exact for machine-size block dimensions, producing the
rational `(blockDim+OPS)/2 + 1 - OPS = (blockDim - OPS + 2)/2`, respectively
`(blockDim+OPS)/2 + OPS = (blockDim + 3*OPS)/2`) and the assignment to `int`
truncates toward zero, which is `Int.tdiv` by 2. -/

structure Reg where
  lx : Int
  ly : Int
  ux : Int
  uy : Int

/-- Up-pyramid bounds at local step `k`. -/
def upBnds (c : Cfg) : Nat → Reg
  | 0 => { lx := c.OPS, ly := c.OPS, ux := c.bw + c.OPS, uy := c.bh + c.OPS }
  | k + 1 =>
    { lx := (upBnds c k).lx + c.OPS, ly := (upBnds c k).ly + c.OPS,
      ux := (upBnds c k).ux - c.OPS, uy := (upBnds c k).uy - c.OPS }

/-- Down-pyramid / octahedron-down-half bounds at local step `k`. -/
def downBnds (c : Cfg) : Nat → Reg
  | 0 =>
    { lx := Int.tdiv ((c.bw : Int) - c.OPS + 2) 2,
      ly := Int.tdiv ((c.bh : Int) - c.OPS + 2) 2,
      ux := Int.tdiv ((c.bw : Int) + 3 * c.OPS) 2,
      uy := Int.tdiv ((c.bh : Int) + 3 * c.OPS) 2 }
  | k + 1 =>
    { lx := (downBnds c k).lx - c.OPS, ly := (downBnds c k).ly - c.OPS,
      ux := (downBnds c k).ux + c.OPS, uy := (downBnds c k).uy + c.OPS }

/-- Exclusive-bound region membership (`UpPyramid` and octahedron up half,
`sweep.h` lines 181, 281): `tidx<ux && tidx>=lx && tidy<uy && tidy>=ly`. -/
def inRegExc (r : Reg) (tidx tidy : Nat) : Bool :=
  decide ((tidx : Int) < r.ux) && decide (r.lx ≤ (tidx : Int)) &&
  decide ((tidy : Int) < r.uy) && decide (r.ly ≤ (tidy : Int))

/-- Inclusive-bound region membership (down halves, `sweep.h` lines 240,
338): `tidx<=ux && tidx>=lx && tidy<=uy && tidy>=ly`. -/
def inRegInc (r : Reg) (tidx tidy : Nat) : Bool :=
  decide ((tidx : Int) ≤ r.ux) && decide (r.lx ≤ (tidx : Int)) &&
  decide ((tidy : Int) ≤ r.uy) && decide (r.ly ≤ (tidy : Int))

/-- Cell count of an exclusive-bound region. -/
def areaExc (r : Reg) : Nat := (r.ux - r.lx).toNat * (r.uy - r.ly).toNat

/-- Cell count of an inclusive-bound region. -/
def areaInc (r : Reg) : Nat :=
  (r.ux - r.lx + 1).toNat * (r.uy - r.ly + 1).toNat

/-- Closed form: after `k` shrinking steps the up-pyramid bounds are the
step-0 bounds eroded by `k*OPS` on every side. -/
theorem upBnds_closed (c : Cfg) (k : Nat) :
    upBnds c k =
      { lx := (upBnds c 0).lx + k * c.OPS, ly := (upBnds c 0).ly + k * c.OPS,
        ux := (upBnds c 0).ux - k * c.OPS,
        uy := (upBnds c 0).uy - k * c.OPS } := by
  induction k with
  | zero => simp
  | succ k ih =>
    simp only [upBnds]
    rw [ih]
    simp only [upBnds, Reg.mk.injEq]
    refine ⟨?_, ?_, ?_, ?_⟩ <;> push_cast <;> ring

/-- Closed form: after `k` growing steps the down-pyramid bounds are the
step-0 bounds grown by `k*OPS` on every side. -/
theorem downBnds_closed (c : Cfg) (k : Nat) :
    downBnds c k =
      { lx := (downBnds c 0).lx - k * c.OPS,
        ly := (downBnds c 0).ly - k * c.OPS,
        ux := (downBnds c 0).ux + k * c.OPS,
        uy := (downBnds c 0).uy + k * c.OPS } := by
  induction k with
  | zero => simp
  | succ k ih =>
    simp only [downBnds]
    rw [ih]
    simp only [downBnds, Reg.mk.injEq]
    refine ⟨?_, ?_, ?_, ?_⟩ <;> push_cast <;> ring

end Sweep

namespace Sweep

/-- While the up-pyramid region is nonempty, each step strictly shrinks its
area (the bounds move in by `OPS ≥ 1` per side). -/
theorem upArea_strict (c : Cfg) (k : Nat) (hR : 1 ≤ c.OPS)
    (hpos : 0 < areaExc (upBnds c k)) :
    areaExc (upBnds c (k + 1)) < areaExc (upBnds c k) := by
  unfold areaExc at *
  simp only [upBnds] at *
  set w := (upBnds c k).ux - (upBnds c k).lx with hwdef
  set h := (upBnds c k).uy - (upBnds c k).ly with hhdef
  have hw : 0 < w := by
    have h1 : w.toNat ≠ 0 := by rintro h0; rw [h0] at hpos; omega
    omega
  have hh : 0 < h := by
    have h1 : h.toNat ≠ 0 := by rintro h0; rw [h0] at hpos; omega
    omega
  have he : (upBnds c k).ux - c.OPS - ((upBnds c k).lx + c.OPS) = w - 2 * c.OPS := by
    rw [hwdef]; ring
  have he2 : (upBnds c k).uy - c.OPS - ((upBnds c k).ly + c.OPS) = h - 2 * c.OPS := by
    rw [hhdef]; ring
  rw [he, he2]
  by_cases hcw : w - 2 * (c.OPS : Int) ≤ 0
  · have h0 : (w - 2 * (c.OPS : Int)).toNat = 0 := by omega
    rw [h0]
    have : 0 < w.toNat * h.toNat := Nat.mul_pos (by omega) (by omega)
    omega
  · calc (w - 2 * (c.OPS : Int)).toNat * (h - 2 * (c.OPS : Int)).toNat
        ≤ (w - 2 * (c.OPS : Int)).toNat * h.toNat :=
        Nat.mul_le_mul_left _ (by omega)
    _ < w.toNat * h.toNat := (Nat.mul_lt_mul_right (by omega)).2 (by omega)

/-- The step-0 down region is nonempty in both axes (for
`OPS ≤ blockDim + 2`, in particular for every configuration with the radius
below the tile size). -/
theorem downBnds_zero_nonempty (c : Cfg) (hR : 1 ≤ c.OPS)
    (hbw : c.OPS ≤ c.bw + 2) (hbh : c.OPS ≤ c.bh + 2) :
    (downBnds c 0).lx ≤ (downBnds c 0).ux ∧
      (downBnds c 0).ly ≤ (downBnds c 0).uy := by
  simp only [downBnds]
  have e1 : Int.tdiv ((c.bw : Int) - c.OPS + 2) 2 = ((c.bw : Int) - c.OPS + 2) / 2 :=
    Int.tdiv_eq_ediv (by omega) (by norm_num)
  have e2 : Int.tdiv ((c.bw : Int) + 3 * c.OPS) 2 = ((c.bw : Int) + 3 * c.OPS) / 2 :=
    Int.tdiv_eq_ediv (by omega) (by norm_num)
  have e3 : Int.tdiv ((c.bh : Int) - c.OPS + 2) 2 = ((c.bh : Int) - c.OPS + 2) / 2 :=
    Int.tdiv_eq_ediv (by omega) (by norm_num)
  have e4 : Int.tdiv ((c.bh : Int) + 3 * c.OPS) 2 = ((c.bh : Int) + 3 * c.OPS) / 2 :=
    Int.tdiv_eq_ediv (by omega) (by norm_num)
  rw [e1, e2, e3, e4]
  omega

/-- Each down step strictly grows the region area (the bounds move out by
`OPS ≥ 1` per side, and the region starts nonempty). -/
theorem downArea_strict (c : Cfg) (k : Nat) (hR : 1 ≤ c.OPS)
    (hbw : c.OPS ≤ c.bw + 2) (hbh : c.OPS ≤ c.bh + 2) :
    areaInc (downBnds c k) < areaInc (downBnds c (k + 1)) := by
  obtain ⟨hx0, hy0⟩ := downBnds_zero_nonempty c hR hbw hbh
  have hck := downBnds_closed c k
  have hck1 := downBnds_closed c (k + 1)
  unfold areaInc
  rw [hck, hck1]
  have hcast : ((k : Int) + 1) * c.OPS = (k : Int) * c.OPS + c.OPS := by ring
  have hx : 0 < (downBnds c 0).ux + k * c.OPS - ((downBnds c 0).lx - k * c.OPS) + 1 := by
    have : 0 ≤ (k : Int) * c.OPS := by positivity
    omega
  have hy : 0 < (downBnds c 0).uy + k * c.OPS - ((downBnds c 0).ly - k * c.OPS) + 1 := by
    have : 0 ≤ (k : Int) * c.OPS := by positivity
    omega
  push_cast
  calc ((downBnds c 0).ux + k * c.OPS - ((downBnds c 0).lx - k * c.OPS) + 1).toNat *
        ((downBnds c 0).uy + k * c.OPS - ((downBnds c 0).ly - k * c.OPS) + 1).toNat
      < ((downBnds c 0).ux + (k + 1) * c.OPS - ((downBnds c 0).lx - (k + 1) * c.OPS) + 1).toNat *
        ((downBnds c 0).uy + k * c.OPS - ((downBnds c 0).ly - k * c.OPS) + 1).toNat := by
        apply (Nat.mul_lt_mul_right (by omega)).2
        have : ((k : Int) + 1) * c.OPS = (k : Int) * c.OPS + c.OPS := by ring
        omega
    _ ≤ ((downBnds c 0).ux + (k + 1) * c.OPS - ((downBnds c 0).lx - (k + 1) * c.OPS) + 1).toNat *
        ((downBnds c 0).uy + (k + 1) * c.OPS - ((downBnds c 0).ly - (k + 1) * c.OPS) + 1).toNat := by
        apply Nat.mul_le_mul_left
        have : ((k : Int) + 1) * c.OPS = (k : Int) * c.OPS + c.OPS := by ring
        omega

end Sweep

namespace Sweep

/-! ## One iteration of a pyramid loop (`sweep.h` lines 178-202, 237-261,
278-300, 335-358)

Each iteration, guarded by the region test on `(tidx, tidy)`:
`step(shared_state, sgid)`; barrier; for each variable `j`:
`state[gid + j*VARS + (k+1)*TIMES] = shared_state[sgid + j*SGIDS]` then
`shared_state[sgid + j*SGIDS] = state[gid + j*VARS + (k+1)*TIMES]`; barrier.

The external `step` is a parameter `stepFn : Buf → Nat → Buf`; per its
contract (spec section 6) it updates, in place, exactly the `NV` variable
slots of the calling cell `sgid`, reading only the tile buffer.  The update
phase therefore stores, for each in-region thread and variable `j`, the value
`stepFn shared sgid` takes at `sgid + j*SGIDS`.

Lockstep threads of one phase write pairwise distinct locations (their own
cell/owned global cell), so the phases are sequentialised thread by thread. -/

/-- Stores done by every in-region thread, one list entry per variable. -/
def perThreadWrites (c : Cfg) (cond : Nat × Nat → Bool)
    (f : Nat × Nat → Nat → Nat × Int) : List (Nat × Int) :=
  (threads c).flatMap fun th =>
    if cond th then (List.range c.NV).map (f th) else []

theorem mem_perThreadWrites (c : Cfg) (cond : Nat × Nat → Bool)
    (f : Nat × Nat → Nat → Nat × Int) (w : Nat × Int) :
    w ∈ perThreadWrites c cond f ↔
      ∃ th, (th.1 < c.bw ∧ th.2 < c.bh) ∧ cond th = true ∧
        ∃ j < c.NV, w = f th j := by
  unfold perThreadWrites
  constructor
  · intro hw
    rcases List.mem_flatMap.1 hw with ⟨th, hth, hwt⟩
    by_cases hcond : cond th
    · rw [if_pos hcond] at hwt
      rcases List.mem_map.1 hwt with ⟨j, hj, heq⟩
      exact ⟨th, (mem_threads c th).1 hth, hcond, j, List.mem_range.1 hj, heq.symm⟩
    · rw [if_neg hcond] at hwt
      exact absurd hwt (List.not_mem_nil _)
  · rintro ⟨th, hth, hcond, j, hj, rfl⟩
    refine List.mem_flatMap.2 ⟨th, (mem_threads c th).2 hth, ?_⟩
    rw [if_pos hcond]
    exact List.mem_map.2 ⟨j, List.mem_range.2 hj, rfl⟩

/-- The update phase: `step(shared_state, sgid)` for in-region threads. -/
def stepPhaseWrites (c : Cfg) (stepFn : Buf → Nat → Buf)
    (inReg : Nat → Nat → Bool) (sh : Buf) : List (Nat × Int) :=
  perThreadWrites c (fun th => inReg (th.1 + c.OPS) (th.2 + c.OPS)) fun th j =>
    (saddr c (th.1 + c.OPS) (th.2 + c.OPS) j,
     stepFn sh (get_sgid c (th.1 + c.OPS) (th.2 + c.OPS))
       (saddr c (th.1 + c.OPS) (th.2 + c.OPS) j))

/-- The write-back phase:
`state[gid + j*VARS + (k+1)*TIMES] = shared_state[sgid + j*SGIDS]`. -/
def writebackWrites (c : Cfg) (bix biy : Nat) (inReg : Nat → Nat → Bool)
    (k : Nat) (sh : Buf) : List (Nat × Int) :=
  perThreadWrites c (fun th => inReg (th.1 + c.OPS) (th.2 + c.OPS)) fun th j =>
    (get_gid c bix biy th.1 th.2 + j * c.VARS + (k + 1) * c.TIMES,
     sh (saddr c (th.1 + c.OPS) (th.2 + c.OPS) j))

/-- The re-seed: `shared_state[sgid + j*SGIDS]` reloaded from the freshly
written `state[gid + j*VARS + (k+1)*TIMES]`. -/
def reseedWrites (c : Cfg) (bix biy : Nat) (inReg : Nat → Nat → Bool)
    (k : Nat) (st : Buf) : List (Nat × Int) :=
  perThreadWrites c (fun th => inReg (th.1 + c.OPS) (th.2 + c.OPS)) fun th j =>
    (saddr c (th.1 + c.OPS) (th.2 + c.OPS) j,
     st (get_gid c bix biy th.1 th.2 + j * c.VARS + (k + 1) * c.TIMES))

/-- One whole loop iteration with loop counter `k`, acting on the pair
(shared tile buffer, global state). -/
def sweepStepK (c : Cfg) (bix biy : Nat) (stepFn : Buf → Nat → Buf)
    (inReg : Nat → Nat → Bool) (k : Nat) (p : Buf × Buf) : Buf × Buf :=
  (applyWrites (reseedWrites c bix biy inReg k
      (applyWrites (writebackWrites c bix biy inReg k
        (applyWrites (stepPhaseWrites c stepFn inReg p.1) p.1)) p.2))
    (applyWrites (stepPhaseWrites c stepFn inReg p.1) p.1),
   applyWrites (writebackWrites c bix biy inReg k
      (applyWrites (stepPhaseWrites c stepFn inReg p.1) p.1)) p.2)

/-- The identity per-cell update: copies each cell's input values to its
output unchanged (spec sections 8.5), i.e. it leaves the tile as is. -/
def idStep : Buf → Nat → Buf := fun s _ => s

end Sweep

namespace Sweep

theorem sweepStepK_fst (c : Cfg) (bix biy : Nat) (stepFn : Buf → Nat → Buf)
    (inReg : Nat → Nat → Bool) (k : Nat) (p : Buf × Buf) :
    (sweepStepK c bix biy stepFn inReg k p).1 =
      applyWrites (reseedWrites c bix biy inReg k
        (applyWrites (writebackWrites c bix biy inReg k
          (applyWrites (stepPhaseWrites c stepFn inReg p.1) p.1)) p.2))
        (applyWrites (stepPhaseWrites c stepFn inReg p.1) p.1) := rfl

theorem sweepStepK_snd (c : Cfg) (bix biy : Nat) (stepFn : Buf → Nat → Buf)
    (inReg : Nat → Nat → Bool) (k : Nat) (p : Buf × Buf) :
    (sweepStepK c bix biy stepFn inReg k p).2 =
      applyWrites (writebackWrites c bix biy inReg k
        (applyWrites (stepPhaseWrites c stepFn inReg p.1) p.1)) p.2 := rfl

/-- The write-back of iteration `k` touches only time level `k+1`: any
in-range global location at a different time level is unchanged. -/
theorem sweepStepK_state_pres (c : Cfg) (hc : GoodCfg c) (bix biy : Nat)
    (hbx : bix < c.gx) (hby : biy < c.gy) (stepFn : Buf → Nat → Buf)
    (inReg : Nat → Nat → Bool) (k : Nat) (p : Buf × Buf) {x y v t : Nat}
    (hx : x < Mxlen c) (hy : y < Mlen c) (hv : v < c.NV) (ht : t ≠ k + 1) :
    (sweepStepK c bix biy stepFn inReg k p).2 (addr c x y v t) =
      p.2 (addr c x y v t) := by
  rw [sweepStepK_snd]
  apply applyWrites_not_mem
  intro w hw
  rcases (mem_perThreadWrites _ _ _ _).1 hw with ⟨th, ⟨hth1, hth2⟩, _, j, hj, rfl⟩
  intro ha
  rw [get_gid_eq_addr] at ha
  obtain ⟨_, _, _, ht'⟩ := addr_inj c hc
    (gidx_lt c bix th.1 hbx hth1) (gidy_lt c biy th.2 hby hth2) hj hx hy hv ha
  exact ht ht'.symm

/-- After iteration `k`, the global slot written back for an in-region thread
holds the post-update tile value of that thread's cell. -/
theorem sweepStepK_writeback_val (c : Cfg) (hc : GoodCfg c) (bix biy : Nat)
    (hbx : bix < c.gx) (hby : biy < c.gy) (stepFn : Buf → Nat → Buf)
    (inReg : Nat → Nat → Bool) (k : Nat) (p : Buf × Buf) {tx ty j : Nat}
    (htx : tx < c.bw) (hty : ty < c.bh) (hj : j < c.NV)
    (hreg : inReg (tx + c.OPS) (ty + c.OPS) = true) :
    (sweepStepK c bix biy stepFn inReg k p).2
        (addr c (c.OPS + tx + c.bw * bix) (c.OPS + ty + c.bh * biy) j (k + 1)) =
      applyWrites (stepPhaseWrites c stepFn inReg p.1) p.1
        (saddr c (tx + c.OPS) (ty + c.OPS) j) := by
  rw [sweepStepK_snd]
  apply applyWrites_mem_agree
  · exact (mem_perThreadWrites _ _ _ _).2 ⟨(tx, ty), ⟨htx, hty⟩, hreg, j, hj,
      by rw [Prod.mk.injEq]; exact ⟨(get_gid_eq_addr c bix biy tx ty j (k + 1)).symm, rfl⟩⟩
  · intro w hw ha
    rcases (mem_perThreadWrites _ _ _ _).1 hw with ⟨th, ⟨hth1, hth2⟩, _, j', hj', rfl⟩
    rw [get_gid_eq_addr] at ha
    obtain ⟨hX, hY, hj2, _⟩ := addr_inj c hc
      (gidx_lt c bix th.1 hbx hth1) (gidy_lt c biy th.2 hby hth2) hj'
      (gidx_lt c bix tx hbx htx) (gidy_lt c biy ty hby hty) hj ha
    have h1 : th.1 = tx := by omega
    have h2 : th.2 = ty := by omega
    rw [h1, h2, hj2]

/-- After iteration `k`, the tile cell of an in-region thread agrees with the
global slot just written back for it (write-back then re-seed). -/
theorem sweepStepK_sync (c : Cfg) (hc : GoodCfg c) (bix biy : Nat)
    (hbx : bix < c.gx) (hby : biy < c.gy) (stepFn : Buf → Nat → Buf)
    (inReg : Nat → Nat → Bool) (k : Nat) (p : Buf × Buf) {tx ty j : Nat}
    (htx : tx < c.bw) (hty : ty < c.bh) (hj : j < c.NV)
    (hreg : inReg (tx + c.OPS) (ty + c.OPS) = true) :
    (sweepStepK c bix biy stepFn inReg k p).1
        (saddr c (tx + c.OPS) (ty + c.OPS) j) =
      (sweepStepK c bix biy stepFn inReg k p).2
        (addr c (c.OPS + tx + c.bw * bix) (c.OPS + ty + c.bh * biy) j (k + 1)) := by
  rw [sweepStepK_fst, sweepStepK_snd]
  apply applyWrites_mem_agree
  · refine (mem_perThreadWrites _ _ _ _).2 ⟨(tx, ty), ⟨htx, hty⟩, hreg, j, hj, ?_⟩
    rw [Prod.mk.injEq]
    exact ⟨rfl, by rw [get_gid_eq_addr]⟩
  · intro w hw ha
    rcases (mem_perThreadWrites _ _ _ _).1 hw with ⟨th, ⟨hth1, hth2⟩, _, j', hj', rfl⟩
    have ha2 : saddr c (th.1 + c.OPS) (th.2 + c.OPS) j' =
        saddr c (tx + c.OPS) (ty + c.OPS) j := ha
    obtain ⟨h1, h2, h3⟩ := saddr_inj c hc (by omega) (by omega) hj'
      (by omega) (by omega) hj ha2
    have h1' : th.1 = tx := by omega
    have h2' : th.2 = ty := by omega
    rw [h1', h2', h3, get_gid_eq_addr]

/-- Out-of-range time levels aside, a state location is either untouched by
an iteration or it is the write-back slot of an in-region thread, holding
that thread's post-update tile value. -/
theorem sweepStepK_state_cases (c : Cfg) (bix biy : Nat)
    (stepFn : Buf → Nat → Buf) (inReg : Nat → Nat → Bool) (k : Nat)
    (p : Buf × Buf) (a : Nat) :
    (sweepStepK c bix biy stepFn inReg k p).2 a = p.2 a ∨
      ∃ tx ty j, tx < c.bw ∧ ty < c.bh ∧ j < c.NV ∧
        inReg (tx + c.OPS) (ty + c.OPS) = true ∧
        a = addr c (c.OPS + tx + c.bw * bix) (c.OPS + ty + c.bh * biy) j (k + 1) ∧
        (sweepStepK c bix biy stepFn inReg k p).2 a =
          applyWrites (stepPhaseWrites c stepFn inReg p.1) p.1
            (saddr c (tx + c.OPS) (ty + c.OPS) j) := by
  rw [sweepStepK_snd]
  rcases applyWrites_cases (writebackWrites c bix biy inReg k
      (applyWrites (stepPhaseWrites c stepFn inReg p.1) p.1)) p.2 a with h | ⟨w, hw, ha, hv⟩
  · exact Or.inl h
  · rcases (mem_perThreadWrites _ _ _ _).1 hw with ⟨th, ⟨hth1, hth2⟩, hreg, j, hj, rfl⟩
    refine Or.inr ⟨th.1, th.2, j, hth1, hth2, hj, hreg, ?_, hv⟩
    rw [← ha, get_gid_eq_addr]

/-- With the identity update, the whole iteration leaves the tile buffer
unchanged: the update writes each cell's own value back, and the re-seed
reloads the value just written. -/
theorem sweepStepK_id_shared (c : Cfg) (hc : GoodCfg c) (bix biy : Nat)
    (hbx : bix < c.gx) (hby : biy < c.gy) (inReg : Nat → Nat → Bool) (k : Nat)
    (p : Buf × Buf) :
    ∀ a, (sweepStepK c bix biy idStep inReg k p).1 a = p.1 a := by
  have hfun : applyWrites (stepPhaseWrites c idStep inReg p.1) p.1 = p.1 := by
    funext a
    apply applyWrites_id
    intro w hw
    rcases (mem_perThreadWrites _ _ _ _).1 hw with ⟨th, _, _, j, _, rfl⟩
    rfl
  intro a
  rw [sweepStepK_fst, hfun]
  apply applyWrites_id
  intro w hw
  rcases (mem_perThreadWrites _ _ _ _).1 hw with ⟨th, ⟨hth1, hth2⟩, hreg, j, hj, rfl⟩
  show applyWrites (writebackWrites c bix biy inReg k p.1) p.2
      (get_gid c bix biy th.1 th.2 + j * c.VARS + (k + 1) * c.TIMES) =
    p.1 (saddr c (th.1 + c.OPS) (th.2 + c.OPS) j)
  have := sweepStepK_writeback_val c hc bix biy hbx hby idStep inReg k p
    hth1 hth2 hj (by rw [← hreg])
  rw [sweepStepK_snd, hfun] at this
  rw [get_gid_eq_addr]
  exact this

end Sweep

namespace Sweep

/-- The pyramid loop: `n` iterations, iteration `m` using region predicate
`reg m` and loop counter `lvl m` (so its write-back lands at time level
`lvl m + 1`). -/
def loopSweep (c : Cfg) (bix biy : Nat) (stepFn : Buf → Nat → Buf)
    (reg : Nat → Nat → Nat → Bool) (lvl : Nat → Nat) :
    Nat → Buf × Buf → Buf × Buf
  | 0, p => p
  | n + 1, p =>
    sweepStepK c bix biy stepFn (reg n) (lvl n)
      (loopSweep c bix biy stepFn reg lvl n p)

/-- Time levels no iteration writes (`t ≠ lvl m + 1` for all executed `m`)
are untouched by the loop. -/
theorem loopSweep_state_pres (c : Cfg) (hc : GoodCfg c) (bix biy : Nat)
    (hbx : bix < c.gx) (hby : biy < c.gy) (stepFn : Buf → Nat → Buf)
    (reg : Nat → Nat → Nat → Bool) (lvl : Nat → Nat) (n : Nat) (p : Buf × Buf)
    {x y v t : Nat} (hx : x < Mxlen c) (hy : y < Mlen c) (hv : v < c.NV)
    (ht : ∀ m, m < n → t ≠ lvl m + 1) :
    (loopSweep c bix biy stepFn reg lvl n p).2 (addr c x y v t) =
      p.2 (addr c x y v t) := by
  induction n with
  | zero => rfl
  | succ n ih =>
    show (sweepStepK c bix biy stepFn (reg n) (lvl n)
      (loopSweep c bix biy stepFn reg lvl n p)).2 _ = _
    rw [sweepStepK_state_pres c hc bix biy hbx hby _ _ _ _ hx hy hv
      (ht n (Nat.lt_succ_self n))]
    exact ih (fun m hm => ht m (Nat.lt_succ_of_lt hm))

/-- With the identity update the whole loop leaves the tile buffer
unchanged. -/
theorem loopSweep_id_shared (c : Cfg) (hc : GoodCfg c) (bix biy : Nat)
    (hbx : bix < c.gx) (hby : biy < c.gy) (reg : Nat → Nat → Nat → Bool)
    (lvl : Nat → Nat) (n : Nat) (p : Buf × Buf) :
    ∀ a, (loopSweep c bix biy idStep reg lvl n p).1 a = p.1 a := by
  induction n with
  | zero => intro a; rfl
  | succ n ih =>
    intro a
    show (sweepStepK c bix biy idStep (reg n) (lvl n)
      (loopSweep c bix biy idStep reg lvl n p)).1 a = _
    rw [sweepStepK_id_shared c hc bix biy hbx hby _ _ _ a]
    exact ih a

/-- With the identity update, after the loop every global location either is
untouched or is the write-back slot of a thread that was in-region at some
iteration `m < n`, and then holds that thread's seed-time tile value. -/
theorem loopSweep_id_state_cases (c : Cfg) (hc : GoodCfg c) (bix biy : Nat)
    (hbx : bix < c.gx) (hby : biy < c.gy) (reg : Nat → Nat → Nat → Bool)
    (lvl : Nat → Nat) (n : Nat) (p : Buf × Buf) (a : Nat) :
    (loopSweep c bix biy idStep reg lvl n p).2 a = p.2 a ∨
      ∃ m tx ty j, m < n ∧ tx < c.bw ∧ ty < c.bh ∧ j < c.NV ∧
        reg m (tx + c.OPS) (ty + c.OPS) = true ∧
        a = addr c (c.OPS + tx + c.bw * bix) (c.OPS + ty + c.bh * biy) j
          (lvl m + 1) ∧
        (loopSweep c bix biy idStep reg lvl n p).2 a =
          p.1 (saddr c (tx + c.OPS) (ty + c.OPS) j) := by
  induction n with
  | zero => exact Or.inl rfl
  | succ n ih =>
    have hstep := sweepStepK_state_cases c bix biy idStep (reg n) (lvl n)
      (loopSweep c bix biy idStep reg lvl n p) a
    have hun : (loopSweep c bix biy idStep reg lvl (n + 1) p).2 =
        (sweepStepK c bix biy idStep (reg n) (lvl n)
          (loopSweep c bix biy idStep reg lvl n p)).2 := rfl
    rcases hstep with h | ⟨tx, ty, j, htx, hty, hj, hreg, ha, hval⟩
    · rw [hun, h]
      rcases ih with h2 | ⟨m, tx, ty, j, hm, htx, hty, hj, hreg, ha, hval⟩
      · exact Or.inl h2
      · exact Or.inr ⟨m, tx, ty, j, Nat.lt_succ_of_lt hm, htx, hty, hj, hreg,
          ha, hval⟩
    · refine Or.inr ⟨n, tx, ty, j, Nat.lt_succ_self n, htx, hty, hj, hreg, ha, ?_⟩
      rw [hun, hval]
      have hfun : applyWrites (stepPhaseWrites c idStep (reg n)
          (loopSweep c bix biy idStep reg lvl n p).1)
          (loopSweep c bix biy idStep reg lvl n p).1 =
          (loopSweep c bix biy idStep reg lvl n p).1 := by
        funext b
        apply applyWrites_id
        intro w hw
        rcases (mem_perThreadWrites _ _ _ _).1 hw with ⟨th, _, _, j', _, rfl⟩
        rfl
      rw [hfun]
      exact loopSweep_id_shared c hc bix biy hbx hby reg lvl n p _

/-! ## The three kernels (`sweep.h` lines 149-204, 206-301, 303-359)

Each is a transformer on (initial tile-buffer contents, global state); the
returned pair is (final tile buffer, final global state).  The tile buffer's
initial contents `sh0` model the uninitialised shared memory the invocation
receives. -/

/-- `UpPyramid` seeding: `shared_state_zero`, `edge_comm(..., 0)` (the float
constant `ZERO`), then the interior copy from `state[gid + i*VARS]`
(time level 0), then the barrier. -/
def upPyramidSeed (c : Cfg) (bix biy : Nat) (sh0 st : Buf) : Buf :=
  applyWrites (interiorSeedWrites c bix biy 0 st)
    (edge_comm c bix biy (shared_state_zero c bix biy sh0) st 0)

/-- `UpPyramid` (`sweep.h` lines 149-204): seeding, then `MPSS` shrinking
iterations with exclusive bounds, iteration `k` writing time level `k+1`. -/
def UpPyramid (c : Cfg) (bix biy : Nat) (stepFn : Buf → Nat → Buf)
    (sh0 st : Buf) : Buf × Buf :=
  loopSweep c bix biy stepFn (fun k => inRegExc (upBnds c k)) (fun k => k)
    c.MPSS (upPyramidSeed c bix biy sh0 st, st)

/-- Octahedron down-half seeding (`sweep.h` lines 229-234): tile reset, then
the interior copy from `state[gid + i*VARS]` (time level 0); *no*
`edge_comm`. -/
def octDownSeed (c : Cfg) (bix biy : Nat) (sh0 st : Buf) : Buf :=
  applyWrites (interiorSeedWrites c bix biy 0 st)
    (shared_state_zero c bix biy sh0)

/-- Octahedron down half (`sweep.h` lines 221-261): `MPSS` growing
iterations with inclusive bounds, iteration `k` writing time level `k+1`. -/
def octDown (c : Cfg) (bix biy : Nat) (stepFn : Buf → Nat → Buf)
    (sh0 st : Buf) : Buf × Buf :=
  loopSweep c bix biy stepFn (fun k => inRegInc (downBnds c k)) (fun k => k)
    c.MPSS (octDownSeed c bix biy sh0 st, st)

/-- Octahedron up-half seeding (`sweep.h` lines 269-276):
`edge_comm(..., MPSS)` then the interior copy from
`state[gid + i*VARS + MPSS*TIMES]`, on the state left by the down half. -/
def octUpSeed (c : Cfg) (bix biy : Nat) (stepFn : Buf → Nat → Buf)
    (sh0 st : Buf) : Buf :=
  applyWrites (interiorSeedWrites c bix biy c.MPSS
      (octDown c bix biy stepFn sh0 st).2)
    (edge_comm c bix biy (octDown c bix biy stepFn sh0 st).1
      (octDown c bix biy stepFn sh0 st).2 c.MPSS)

/-- `Octahedron` (`sweep.h` lines 206-301): the down half, then the up half:
`TWO*MPSS - ONE - MPSS = MPSS - 1` shrinking iterations, the one with loop
counter `k = MPSS + m` writing time level `MPSS + m + 1`. -/
def Octahedron (c : Cfg) (bix biy : Nat) (stepFn : Buf → Nat → Buf)
    (sh0 st : Buf) : Buf × Buf :=
  loopSweep c bix biy stepFn (fun m => inRegExc (upBnds c m))
    (fun m => c.MPSS + m) (c.MPSS - 1)
    (octUpSeed c bix biy stepFn sh0 st, (octDown c bix biy stepFn sh0 st).2)

/-- `DownPyramid` seeding (`sweep.h` lines 309-332): tile reset,
`edge_comm(..., MPSS)`, then the interior copy from `state[gid + i*VARS]` —
time level 0, with no `MPSS*TIMES` term. -/
def downPyramidSeed (c : Cfg) (bix biy : Nat) (sh0 st : Buf) : Buf :=
  applyWrites (interiorSeedWrites c bix biy 0 st)
    (edge_comm c bix biy (shared_state_zero c bix biy sh0) st c.MPSS)

/-- `DownPyramid` (`sweep.h` lines 303-359): seeding, then `MPSS` growing
iterations with inclusive bounds, iteration `k` writing time level `k+1`. -/
def DownPyramid (c : Cfg) (bix biy : Nat) (stepFn : Buf → Nat → Buf)
    (sh0 st : Buf) : Buf × Buf :=
  loopSweep c bix biy stepFn (fun k => inRegInc (downBnds c k)) (fun k => k)
    c.MPSS (downPyramidSeed c bix biy sh0 st, st)

/-- All blocks of the launch grid. -/
def blocks (c : Cfg) : List (Nat × Nat) :=
  (List.range c.gx).flatMap fun bx => (List.range c.gy).map fun b2 => (bx, b2)

/-- A whole-grid `UpPyramid` launch: every block runs on the shared
persistent array.  Blocks write pairwise disjoint global locations and read
only time levels no block of this launch writes, so the sequential fold
models the concurrent launch. -/
def runUpAll (c : Cfg) (stepFn : Buf → Nat → Buf) (sh0 st : Buf) : Buf :=
  (blocks c).foldl (fun g b => (UpPyramid c b.1 b.2 stepFn sh0 g).2) st

/-- A whole-grid `DownPyramid` launch. -/
def runDownAll (c : Cfg) (stepFn : Buf → Nat → Buf) (sh0 st : Buf) : Buf :=
  (blocks c).foldl (fun g b => (DownPyramid c b.1 b.2 stepFn sh0 g).2) st

end Sweep

namespace Sweep

/-! ## Barrier counts

How many `__syncthreads()` each thread of a block executes, read off the
control flow of the source.  All threads reach the barriers of
`shared_state_zero` (line 143), `edge_comm` (line 116) and the one after the
interior copy (lines 176/234/276/332): those are outside any divergent
conditional.  The two barriers of each loop iteration (lines 185 and 193,
245 and 254, 285 and 293, 342 and 351) sit *inside* the
`if (tidx<ux && ...)` region conditional, so only threads inside the current
region execute them. -/

/-- Barriers executed by thread `(tx, ty)` in `UpPyramid`: 3 unconditional
ones, plus 2 per iteration whose region contains the thread. -/
def upSyncCount (c : Cfg) (tx ty : Nat) : Nat :=
  3 + ((List.range c.MPSS).map fun k =>
    if inRegExc (upBnds c k) (tx + c.OPS) (ty + c.OPS) then 2 else 0).sum

/-- Barriers executed by thread `(tx, ty)` in `Octahedron`. -/
def octSyncCount (c : Cfg) (tx ty : Nat) : Nat :=
  2 + ((List.range c.MPSS).map fun k =>
    if inRegInc (downBnds c k) (tx + c.OPS) (ty + c.OPS) then 2 else 0).sum
  + (2 + ((List.range (c.MPSS - 1)).map fun m =>
    if inRegExc (upBnds c m) (tx + c.OPS) (ty + c.OPS) then 2 else 0).sum)

/-- Barriers executed by thread `(tx, ty)` in `DownPyramid`. -/
def downSyncCount (c : Cfg) (tx ty : Nat) : Nat :=
  3 + ((List.range c.MPSS).map fun k =>
    if inRegInc (downBnds c k) (tx + c.OPS) (ty + c.OPS) then 2 else 0).sum

/-! ## Kernel-level seeding facts -/

/-- `UpPyramid` seeds every thread's tile cell from global time level 0. -/
theorem upPyramidSeed_val (c : Cfg) (hc : GoodCfg c) (bix biy : Nat)
    (sh0 st : Buf) {tx ty i : Nat}
    (htx : tx < c.bw) (hty : ty < c.bh) (hi : i < c.NV) :
    upPyramidSeed c bix biy sh0 st (saddr c (tx + c.OPS) (ty + c.OPS) i) =
      st (addr c (c.OPS + tx + c.bw * bix) (c.OPS + ty + c.bh * biy) i 0) :=
  interiorSeed_val c hc bix biy 0 st _ htx hty hi

/-- `DownPyramid` seeds every thread's tile cell from global time level 0
(the interior copy reads `state[gid + i*VARS]`, with no time-level term). -/
theorem downPyramidSeed_val (c : Cfg) (hc : GoodCfg c) (bix biy : Nat)
    (sh0 st : Buf) {tx ty i : Nat}
    (htx : tx < c.bw) (hty : ty < c.bh) (hi : i < c.NV) :
    downPyramidSeed c bix biy sh0 st (saddr c (tx + c.OPS) (ty + c.OPS) i) =
      st (addr c (c.OPS + tx + c.bw * bix) (c.OPS + ty + c.bh * biy) i 0) :=
  interiorSeed_val c hc bix biy 0 st _ htx hty hi

/-- `DownPyramid` seeds every halo tile cell from global time level `MPSS`
(via `edge_comm(shared_state, state, MPSS)`), for square tiles. -/
theorem downPyramidSeed_halo (c : Cfg) (hc : GoodCfg c) (hsq : c.bw = c.bh)
    (hthr : c.bh + 2 * c.OPS ≤ c.bw * c.bh) (bix biy : Nat) (sh0 st : Buf)
    {x y v : Nat} (hx : x < c.bw + 2 * c.OPS) (hy : y < c.bh + 2 * c.OPS)
    (hv : v < c.NV)
    (hHalo : x < c.OPS ∨ c.bw + c.OPS ≤ x ∨ y < c.OPS ∨ c.bh + c.OPS ≤ y) :
    downPyramidSeed c bix biy sh0 st (saddr c x y v) =
      st (addr c (c.bw * bix + x) (c.bh * biy + y) v c.MPSS) := by
  unfold downPyramidSeed
  rw [interiorSeed_pres c hc bix biy 0 st _ hx hy hv hHalo]
  exact edge_comm_halo c hc hsq hthr bix biy _ st c.MPSS hx hy hv hHalo

/-- The octahedron's down half seeds every thread's tile cell from global
time level 0. -/
theorem octDownSeed_val (c : Cfg) (hc : GoodCfg c) (bix biy : Nat)
    (sh0 st : Buf) {tx ty i : Nat}
    (htx : tx < c.bw) (hty : ty < c.bh) (hi : i < c.NV) :
    octDownSeed c bix biy sh0 st (saddr c (tx + c.OPS) (ty + c.OPS) i) =
      st (addr c (c.OPS + tx + c.bw * bix) (c.OPS + ty + c.bh * biy) i 0) :=
  interiorSeed_val c hc bix biy 0 st _ htx hty hi

/-- The octahedron's down half runs no `edge_comm`: after its seeding, every
halo cell still holds the zero written by the tile reset. -/
theorem octDownSeed_halo_zero (c : Cfg) (hc : GoodCfg c)
    (hthr : c.bh + 2 * c.OPS ≤ c.bw * c.bh) (bix biy : Nat) (sh0 st : Buf)
    {x y v : Nat} (hx : x < c.bw + 2 * c.OPS) (hy : y < c.bh + 2 * c.OPS)
    (hv : v < c.NV)
    (hHalo : x < c.OPS ∨ c.bw + c.OPS ≤ x ∨ y < c.OPS ∨ c.bh + c.OPS ≤ y) :
    octDownSeed c bix biy sh0 st (saddr c x y v) = 0 := by
  unfold octDownSeed
  rw [interiorSeed_pres c hc bix biy 0 st _ hx hy hv hHalo]
  exact ssz_val c bix biy sh0 hthr hx hy hv

/-- The octahedron's up half seeds every thread's tile cell from the global
state left by the down half at time level `MPSS`. -/
theorem octUpSeed_val (c : Cfg) (hc : GoodCfg c) (bix biy : Nat)
    (stepFn : Buf → Nat → Buf) (sh0 st : Buf) {tx ty i : Nat}
    (htx : tx < c.bw) (hty : ty < c.bh) (hi : i < c.NV) :
    octUpSeed c bix biy stepFn sh0 st (saddr c (tx + c.OPS) (ty + c.OPS) i) =
      (octDown c bix biy stepFn sh0 st).2
        (addr c (c.OPS + tx + c.bw * bix) (c.OPS + ty + c.bh * biy) i c.MPSS) :=
  interiorSeed_val c hc bix biy c.MPSS _ _ htx hty hi

/-- The octahedron's up half seeds every halo tile cell from the global state
left by the down half at time level `MPSS`, for square tiles. -/
theorem octUpSeed_halo (c : Cfg) (hc : GoodCfg c) (hsq : c.bw = c.bh)
    (hthr : c.bh + 2 * c.OPS ≤ c.bw * c.bh) (bix biy : Nat)
    (stepFn : Buf → Nat → Buf) (sh0 st : Buf)
    {x y v : Nat} (hx : x < c.bw + 2 * c.OPS) (hy : y < c.bh + 2 * c.OPS)
    (hv : v < c.NV)
    (hHalo : x < c.OPS ∨ c.bw + c.OPS ≤ x ∨ y < c.OPS ∨ c.bh + c.OPS ≤ y) :
    octUpSeed c bix biy stepFn sh0 st (saddr c x y v) =
      (octDown c bix biy stepFn sh0 st).2
        (addr c (c.bw * bix + x) (c.bh * biy + y) v c.MPSS) := by
  unfold octUpSeed
  rw [interiorSeed_pres c hc bix biy c.MPSS _ _ hx hy hv hHalo]
  exact edge_comm_halo c hc hsq hthr bix biy _ _ c.MPSS hx hy hv hHalo

end Sweep

namespace Sweep

/-- Relation between the persistent array before (`g0`) and after (`g`) some
identity-update stages: every location is either untouched, or is a
time-level `t ≥ 1` slot of an in-range grid cell holding that cell's
time-level-0 value. -/
def Produced (c : Cfg) (g0 g : Buf) : Prop :=
  ∀ a, g a = g0 a ∨
    ∃ x y v t, x < Mxlen c ∧ y < Mlen c ∧ v < c.NV ∧ 1 ≤ t ∧
      a = addr c x y v t ∧ g a = g0 (addr c x y v 0)

/-- A `Produced` state agrees with the original on all of time level 0. -/
theorem produced_level0 (c : Cfg) (hc : GoodCfg c) (g0 g : Buf)
    (hg : Produced c g0 g) (x y v : Nat)
    (hx : x < Mxlen c) (hy : y < Mlen c) (hv : v < c.NV) :
    g (addr c x y v 0) = g0 (addr c x y v 0) := by
  rcases hg (addr c x y v 0) with h | ⟨x', y', v', t', hx', hy', hv', ht', ha, _⟩
  · exact h
  · obtain ⟨_, _, _, ht0⟩ := addr_inj c hc hx hy hv hx' hy' hv' ha
    omega

/-- One `UpPyramid` block with the identity update preserves `Produced`. -/
theorem UpPyramid_id_produced (c : Cfg) (hc : GoodCfg c) (g0 : Buf)
    (bix biy : Nat) (hbx : bix < c.gx) (hby : biy < c.gy) (sh0 g : Buf)
    (hg : Produced c g0 g) :
    Produced c g0 (UpPyramid c bix biy idStep sh0 g).2 := by
  intro a
  have hcase := loopSweep_id_state_cases c hc bix biy hbx hby
    (fun k => inRegExc (upBnds c k)) (fun k => k) c.MPSS
    (upPyramidSeed c bix biy sh0 g, g) a
  rcases hcase with h | ⟨m, tx, ty, j, hm, htx, hty, hj, hreg, ha, hval⟩
  · have h2 : (UpPyramid c bix biy idStep sh0 g).2 a = g a := h
    rcases hg a with h3 | ⟨x, y, v, t, hx, hy, hv, ht, ha3, hval3⟩
    · exact Or.inl (by rw [h2, h3])
    · exact Or.inr ⟨x, y, v, t, hx, hy, hv, ht, ha3, by rw [h2, hval3]⟩
  · refine Or.inr ⟨c.OPS + tx + c.bw * bix, c.OPS + ty + c.bh * biy, j, m + 1,
      gidx_lt c bix tx hbx htx, gidy_lt c biy ty hby hty, hj, by omega, ha, ?_⟩
    have h2 : (UpPyramid c bix biy idStep sh0 g).2 a =
        upPyramidSeed c bix biy sh0 g
          (saddr c (tx + c.OPS) (ty + c.OPS) j) := hval
    rw [h2, upPyramidSeed_val c hc bix biy sh0 g htx hty hj]
    exact produced_level0 c hc g0 g hg _ _ _
      (gidx_lt c bix tx hbx htx) (gidy_lt c biy ty hby hty) hj

/-- One `DownPyramid` block with the identity update preserves `Produced`
(its interior seed also reads time level 0, and its halo seed is never
written back). -/
theorem DownPyramid_id_produced (c : Cfg) (hc : GoodCfg c) (g0 : Buf)
    (bix biy : Nat) (hbx : bix < c.gx) (hby : biy < c.gy) (sh0 g : Buf)
    (hg : Produced c g0 g) :
    Produced c g0 (DownPyramid c bix biy idStep sh0 g).2 := by
  intro a
  have hcase := loopSweep_id_state_cases c hc bix biy hbx hby
    (fun k => inRegInc (downBnds c k)) (fun k => k) c.MPSS
    (downPyramidSeed c bix biy sh0 g, g) a
  rcases hcase with h | ⟨m, tx, ty, j, hm, htx, hty, hj, hreg, ha, hval⟩
  · have h2 : (DownPyramid c bix biy idStep sh0 g).2 a = g a := h
    rcases hg a with h3 | ⟨x, y, v, t, hx, hy, hv, ht, ha3, hval3⟩
    · exact Or.inl (by rw [h2, h3])
    · exact Or.inr ⟨x, y, v, t, hx, hy, hv, ht, ha3, by rw [h2, hval3]⟩
  · refine Or.inr ⟨c.OPS + tx + c.bw * bix, c.OPS + ty + c.bh * biy, j, m + 1,
      gidx_lt c bix tx hbx htx, gidy_lt c biy ty hby hty, hj, by omega, ha, ?_⟩
    have h2 : (DownPyramid c bix biy idStep sh0 g).2 a =
        downPyramidSeed c bix biy sh0 g
          (saddr c (tx + c.OPS) (ty + c.OPS) j) := hval
    rw [h2, downPyramidSeed_val c hc bix biy sh0 g htx hty hj]
    exact produced_level0 c hc g0 g hg _ _ _
      (gidx_lt c bix tx hbx htx) (gidy_lt c biy ty hby hty) hj

theorem mem_blocks (c : Cfg) (b : Nat × Nat) :
    b ∈ blocks c ↔ b.1 < c.gx ∧ b.2 < c.gy := by
  constructor
  · intro h
    rcases List.mem_flatMap.1 h with ⟨bx, hbx, h2⟩
    rcases List.mem_map.1 h2 with ⟨b2, hb2, heq⟩
    cases heq
    exact ⟨List.mem_range.1 hbx, List.mem_range.1 hb2⟩
  · intro ⟨h1, h2⟩
    exact List.mem_flatMap.2 ⟨b.1, List.mem_range.2 h1,
      List.mem_map.2 ⟨b.2, List.mem_range.2 h2, Prod.mk.eta⟩⟩

/-- The whole-grid `UpPyramid` launch preserves `Produced`. -/
theorem runUpAll_id_produced (c : Cfg) (hc : GoodCfg c) (g0 sh0 g : Buf)
    (hg : Produced c g0 g) :
    Produced c g0 (runUpAll c idStep sh0 g) := by
  unfold runUpAll
  have hgen : ∀ (l : List (Nat × Nat)), (∀ b ∈ l, b.1 < c.gx ∧ b.2 < c.gy) →
      ∀ g, Produced c g0 g →
        Produced c g0 (l.foldl (fun g b => (UpPyramid c b.1 b.2 idStep sh0 g).2) g) := by
    intro l
    induction l with
    | nil => intro _ g hPg; exact hPg
    | cons b l ih =>
      intro hb g hPg
      exact ih (fun b' hb' => hb b' (List.mem_cons_of_mem _ hb')) _
        (UpPyramid_id_produced c hc g0 b.1 b.2
          (hb b (List.mem_cons_self _ _)).1 (hb b (List.mem_cons_self _ _)).2 sh0 g hPg)
  exact hgen (blocks c) (fun b hb => (mem_blocks c b).1 hb) g hg

/-- The whole-grid `DownPyramid` launch preserves `Produced`. -/
theorem runDownAll_id_produced (c : Cfg) (hc : GoodCfg c) (g0 sh0 g : Buf)
    (hg : Produced c g0 g) :
    Produced c g0 (runDownAll c idStep sh0 g) := by
  unfold runDownAll
  have hgen : ∀ (l : List (Nat × Nat)), (∀ b ∈ l, b.1 < c.gx ∧ b.2 < c.gy) →
      ∀ g, Produced c g0 g →
        Produced c g0 (l.foldl (fun g b => (DownPyramid c b.1 b.2 idStep sh0 g).2) g) := by
    intro l
    induction l with
    | nil => intro _ g hPg; exact hPg
    | cons b l ih =>
      intro hb g hPg
      exact ih (fun b' hb' => hb b' (List.mem_cons_of_mem _ hb')) _
        (DownPyramid_id_produced c hc g0 b.1 b.2
          (hb b (List.mem_cons_self _ _)).1 (hb b (List.mem_cons_self _ _)).2 sh0 g hPg)
  exact hgen (blocks c) (fun b hb => (mem_blocks c b).1 hb) g hg

end Sweep

namespace Sweep

/-! ## Claim theorems -/

/-- A canonical well-formed square configuration: 4x4 tile, one block,
radius 1, one variable, two pyramid steps; strides as the host sets them
(`Mlen = Mxlen = 6`, `SGIDS = 36`, `VARS = 36`, `TIMES = 36`). -/
def cW : Cfg :=
  { bw := 4, bh := 4, gx := 1, gy := 1, OPS := 1, NV := 1, MPSS := 2,
    SGIDS := 36, VARS := 36, TIMES := 36 }

/-- Claim C6: after `shared_state_zero` returns (before Edge Exchange or
interior seeding), every cell of the tile buffer — every halo-padded `(x,y)`
position for every variable — has been set to zero.  Holds whenever the
block has at least `blockDim.y + 2*OPS` threads, i.e. enough to populate the
zeroing row band. -/
theorem C6_tile_reset_zero (c : Cfg) (bix biy : Nat) (shared : Buf)
    (hthr : c.bh + 2 * c.OPS ≤ c.bw * c.bh)
    {x y v : Nat} (hx : x < c.bw + 2 * c.OPS) (hy : y < c.bh + 2 * c.OPS)
    (hv : v < c.NV) :
    shared_state_zero c bix biy shared (saddr c x y v) = 0 :=
  ssz_val c bix biy shared hthr hx hy hv

/-- Witness for C6 at the canonical configuration, with nonzero stale
contents in the buffer. -/
theorem C6_tile_reset_zero_witness :
    shared_state_zero cW 0 0 (fun _ => 7) (saddr cW 5 5 0) = 0 :=
  C6_tile_reset_zero cW 0 0 (fun _ => 7) (by decide) (by decide) (by decide)
    (by decide)

/-- Claim C9: `get_sgid` is injective over the valid tile-buffer coordinates
of one invocation, and `get_gid` is injective across all threads of all
tile-processing groups (time level fixed: `get_gid` carries no time term). -/
theorem C9_index_maps_injective (c : Cfg) :
    (∀ tidx tidy tidx' tidy' : Nat,
      tidx < c.bw + 2 * c.OPS → tidy < c.bh + 2 * c.OPS →
      tidx' < c.bw + 2 * c.OPS → tidy' < c.bh + 2 * c.OPS →
      get_sgid c tidx tidy = get_sgid c tidx' tidy' →
      tidx = tidx' ∧ tidy = tidy') ∧
    (∀ bix biy tx ty bix' biy' tx' ty' : Nat,
      bix < c.gx → biy < c.gy → tx < c.bw → ty < c.bh →
      bix' < c.gx → biy' < c.gy → tx' < c.bw → ty' < c.bh →
      get_gid c bix biy tx ty = get_gid c bix' biy' tx' ty' →
      bix = bix' ∧ biy = biy' ∧ tx = tx' ∧ ty = ty') := by
  constructor
  · intro tidx tidy tidx' tidy' hx hy hx' hy' h
    have e : (c.bh + 2 * c.OPS) * tidx + tidy =
        (c.bh + 2 * c.OPS) * tidx' + tidy' := by
      unfold get_sgid at h; omega
    obtain ⟨h1, h2⟩ := mulAdd_inj (c.bh + 2 * c.OPS) tidx tidy tidx' tidy' hy hy' e
    exact ⟨h1, h2⟩
  · intro bix biy tx ty bix' biy' tx' ty' hbx hby htx hty hbx' hby' htx' hty' h
    have e : Mlen c * (c.OPS + tx + c.bw * bix) + (c.OPS + ty + c.bh * biy) =
        Mlen c * (c.OPS + tx' + c.bw * bix') + (c.OPS + ty' + c.bh * biy') := by
      have e1 : get_gid c bix biy tx ty =
          Mlen c * (c.OPS + tx + c.bw * bix) + (c.OPS + ty + c.bh * biy) := by
        unfold get_gid; ring
      have e2 : get_gid c bix' biy' tx' ty' =
          Mlen c * (c.OPS + tx' + c.bw * bix') + (c.OPS + ty' + c.bh * biy') := by
        unfold get_gid; ring
      rw [← e1, ← e2, h]
    obtain ⟨hX, hY⟩ := mulAdd_inj (Mlen c) _ _ _ _
      (gidy_lt c biy ty hby hty) (gidy_lt c biy' ty' hby' hty') e
    obtain ⟨hbx2, htx2⟩ := mulAdd_inj c.bw bix tx bix' tx' htx htx' (by omega)
    obtain ⟨hby2, hty2⟩ := mulAdd_inj c.bh biy ty biy' ty' hty hty' (by omega)
    exact ⟨hbx2, hby2, htx2, hty2⟩

/-- Witness for C9: concrete application at the canonical configuration. -/
theorem C9_index_maps_injective_witness : (2 : Nat) = 2 ∧ (3 : Nat) = 3 :=
  (C9_index_maps_injective cW).1 2 3 2 3 (by decide) (by decide) (by decide)
    (by decide) rfl

/-- Claim C2: for the up pyramid the valid region at local step `k` is
exactly the step-0 region eroded by `k*OPS` on every side, and (while
nonempty) its area strictly decreases; for the down pyramid the region at
step `k` is exactly the step-0 region grown by `k*OPS` on every side, and
its area strictly increases. -/
theorem C2_region_nesting (c : Cfg) (k : Nat) (hR : 1 ≤ c.OPS)
    (hbw : c.OPS ≤ c.bw + 2) (hbh : c.OPS ≤ c.bh + 2) :
    (upBnds c k).lx = (upBnds c 0).lx + k * c.OPS ∧
    (upBnds c k).ly = (upBnds c 0).ly + k * c.OPS ∧
    (upBnds c k).ux = (upBnds c 0).ux - k * c.OPS ∧
    (upBnds c k).uy = (upBnds c 0).uy - k * c.OPS ∧
    (0 < areaExc (upBnds c k) →
      areaExc (upBnds c (k + 1)) < areaExc (upBnds c k)) ∧
    (downBnds c k).lx = (downBnds c 0).lx - k * c.OPS ∧
    (downBnds c k).ly = (downBnds c 0).ly - k * c.OPS ∧
    (downBnds c k).ux = (downBnds c 0).ux + k * c.OPS ∧
    (downBnds c k).uy = (downBnds c 0).uy + k * c.OPS ∧
    areaInc (downBnds c k) < areaInc (downBnds c (k + 1)) := by
  have hu := upBnds_closed c k
  have hd := downBnds_closed c k
  exact ⟨by rw [hu], by rw [hu], by rw [hu], by rw [hu],
    upArea_strict c k hR, by rw [hd], by rw [hd], by rw [hd], by rw [hd],
    downArea_strict c k hR hbw hbh⟩

/-- Witness for C2 at the canonical configuration, step 0 to 1. -/
theorem C2_region_nesting_witness :
    areaExc (upBnds cW 1) < areaExc (upBnds cW 0) ∧
    areaInc (downBnds cW 0) < areaInc (downBnds cW 1) := by
  have h := C2_region_nesting cW 0 (by decide) (by decide) (by decide)
  exact ⟨h.2.2.2.2.1 (by decide), h.2.2.2.2.2.2.2.2.2⟩

/-- Claim C1 (code bug): the two per-step barriers sit inside the region
conditional (`sweep.h` lines 181-194, 240-255, 281-294, 338-352), so a
thread outside the current valid region skips them: at the canonical 4x4,
radius-1, 2-step configuration the corner thread `(0,0)` leaves the shrunken
step-1 up region and executes 5 barriers where the interior thread `(1,1)`
executes 7; the same divergence shows in both halves of `Octahedron` and in
`DownPyramid`.  The claim (and spec sections 5 and 7) requires all threads
to reach every barrier equally. -/
theorem C1_barrier_divergence :
    upSyncCount cW 0 0 = 5 ∧ upSyncCount cW 1 1 = 7 ∧
    upSyncCount cW 0 0 ≠ upSyncCount cW 1 1 ∧
    downSyncCount cW 0 0 = 5 ∧ downSyncCount cW 1 1 = 7 ∧
    octSyncCount cW 0 0 ≠ octSyncCount cW 1 1 := by decide

end Sweep

namespace Sweep

/-- Claim C3 (amended): for every tile, variable, and halo cell, after
`edge_comm` returns the tile-buffer cell equals the corresponding cell of
the persistent global array at the caller-specified time level — provided
the tile is square (`blockDim.x = blockDim.y`) and the block has at least
`blockDim.y + 2*OPS` threads.  Without squareness the corner condition at
`sweep.h` line 105 tests the y-position against the x-extent and leaves halo
rows unwritten (`C3_counterexample`). -/
theorem C3_edge_halo_correct (c : Cfg) (hc : GoodCfg c) (hsq : c.bw = c.bh)
    (hthr : c.bh + 2 * c.OPS ≤ c.bw * c.bh)
    (bix biy : Nat) (shared state : Buf) (ct : Nat)
    {x y v : Nat} (hx : x < c.bw + 2 * c.OPS) (hy : y < c.bh + 2 * c.OPS)
    (hv : v < c.NV)
    (hHalo : x < c.OPS ∨ c.bw + c.OPS ≤ x ∨ y < c.OPS ∨ c.bh + c.OPS ≤ y) :
    edge_comm c bix biy shared state ct (saddr c x y v) =
      state (addr c (c.bw * bix + x) (c.bh * biy + y) v ct) :=
  edge_comm_halo c hc hsq hthr bix biy shared state ct hx hy hv hHalo

/-- Witness for C3 at the canonical square configuration: the front-edge
halo cell `(0, 1)` receives the distinct per-cell marker of its global
counterpart. -/
theorem C3_edge_halo_correct_witness :
    edge_comm cW 0 0 (fun _ => (0 : Int)) (fun a => (a : Int)) 0
        (saddr cW 0 1 0) =
      ((addr cW (cW.bw * 0 + 0) (cW.bh * 0 + 1) 0 0 : Nat) : Int) :=
  C3_edge_halo_correct cW ⟨by decide, by decide, by decide⟩ rfl (by decide)
    0 0 (fun _ => (0 : Int)) (fun a => (a : Int)) 0 (by decide) (by decide)
    (by decide) (Or.inl (by decide))

/-- A non-square configuration: 4x2 tile, radius 1, one block, one variable
(`Mlen = 4`, `Mxlen = 6`, `VARS = TIMES = 24`, `SGIDS = 24`). -/
def cN : Cfg :=
  { bw := 4, bh := 2, gx := 1, gy := 1, OPS := 1, NV := 1, MPSS := 1,
    SGIDS := 24, VARS := 24, TIMES := 24 }

/-- Counterexample for C3 as stated: on the non-square 4x2 tile, `(2, 3)` is
a halo cell (its `y = 3` is in the far y halo, `bh + OPS = 3 ≤ 3 < 4`), the
global array holds 1 everywhere, yet after tile reset and `edge_comm` the
tile cell still holds 0: the thread with `tgid = 3` passes neither
`tgid < OPS` nor `blockDim.x + OPS = 5 <= tgid`, so no store covers the
cell. -/
theorem C3_counterexample :
    (2 < cN.bw + 2 * cN.OPS ∧ cN.bh + cN.OPS ≤ 3 ∧ 3 < cN.bh + 2 * cN.OPS) ∧
    edge_comm cN 0 0 (shared_state_zero cN 0 0 (fun _ => 0)) (fun _ => 1) 0
        (saddr cN 2 3 0) = 0 ∧
    (fun _ => (1 : Int)) (addr cN (cN.bw * 0 + 2) (cN.bh * 0 + 3) 0 0) = 1 ∧
    (0 : Int) ≠ 1 := by
  refine ⟨by decide, ?_, rfl, by decide⟩
  decide

/-- The property claim C8 asserts of the down-half step-0 bounds, stated
from the spec's words: the rectangle has the minimal side lengths `2*OPS`,
lies inside the tile interior, and is centered there to within one cell in
each axis. -/
def downStartCenteredMinimal (c : Cfg) : Prop :=
  ((downBnds c 0).ux - (downBnds c 0).lx + 1 = 2 * (c.OPS : Int)) ∧
  ((downBnds c 0).uy - (downBnds c 0).ly + 1 = 2 * (c.OPS : Int)) ∧
  ((c.OPS : Int) ≤ (downBnds c 0).lx) ∧
  ((downBnds c 0).ux ≤ (c.bw : Int) + c.OPS - 1) ∧
  ((c.OPS : Int) ≤ (downBnds c 0).ly) ∧
  ((downBnds c 0).uy ≤ (c.bh : Int) + c.OPS - 1) ∧
  (((downBnds c 0).lx - c.OPS) - (((c.bw : Int) + c.OPS - 1) - (downBnds c 0).ux) ≤ 1) ∧
  ((((c.bw : Int) + c.OPS - 1) - (downBnds c 0).ux) - ((downBnds c 0).lx - c.OPS) ≤ 1) ∧
  (((downBnds c 0).ly - c.OPS) - (((c.bh : Int) + c.OPS - 1) - (downBnds c 0).uy) ≤ 1) ∧
  ((((c.bh : Int) + c.OPS - 1) - (downBnds c 0).uy) - ((downBnds c 0).ly - c.OPS) ≤ 1)

/-- A 6x6 tile with radius 3 (`Mlen = Mxlen = 12`, strides accordingly). -/
def c8x : Cfg :=
  { bw := 6, bh := 6, gx := 1, gy := 1, OPS := 3, NV := 1, MPSS := 1,
    SGIDS := 144, VARS := 144, TIMES := 144 }

/-- Counterexample for C8 as stated: at tile 6x6 with radius 3 the step-0
down bounds are `lx = ly = 2`, `ux = uy = 7`, a rectangle that protrudes one
cell into the low halo (`lx = 2 < OPS = 3`) and whose margins inside the
interior differ by 2 — not a rectangle centered in the tile interior. -/
theorem C8_counterexample :
    (downBnds c8x 0).lx = 2 ∧ (downBnds c8x 0).ux = 7 ∧
    ¬ downStartCenteredMinimal c8x := by
  refine ⟨by decide, by decide, ?_⟩
  unfold downStartCenteredMinimal
  decide

/-- Claim C8 (amended): the down-half's step-0 bounds are derived from the
tile dimensions and the radius alone (the split-offset constants `SPLITX`
and `SPLITY` are declared at `sweep.h` lines 25-26 but never read by any
kernel); the rectangle always has the minimal side lengths `2*OPS`, and its
low-side margin inside the interior exceeds the high-side margin by exactly
`2 - OPS` (when `blockDim - OPS` is even) or `1 - OPS` (odd): centered to
within one cell only for small radii, skewed toward the low side for
`OPS ≥ 3`. -/
theorem C8_down_start_minimal (c : Cfg) (hR : 1 ≤ c.OPS)
    (hbw : c.OPS ≤ c.bw + 2) (hbh : c.OPS ≤ c.bh + 2) :
    ((downBnds c 0).ux - (downBnds c 0).lx + 1 = 2 * (c.OPS : Int)) ∧
    ((downBnds c 0).uy - (downBnds c 0).ly + 1 = 2 * (c.OPS : Int)) ∧
    (((downBnds c 0).lx - c.OPS) - (((c.bw : Int) + c.OPS - 1) - (downBnds c 0).ux)
        = 2 - c.OPS ∨
      ((downBnds c 0).lx - c.OPS) - (((c.bw : Int) + c.OPS - 1) - (downBnds c 0).ux)
        = 1 - c.OPS) ∧
    (((downBnds c 0).ly - c.OPS) - (((c.bh : Int) + c.OPS - 1) - (downBnds c 0).uy)
        = 2 - c.OPS ∨
      ((downBnds c 0).ly - c.OPS) - (((c.bh : Int) + c.OPS - 1) - (downBnds c 0).uy)
        = 1 - c.OPS) := by
  simp only [downBnds]
  have e1 : Int.tdiv ((c.bw : Int) - c.OPS + 2) 2 = ((c.bw : Int) - c.OPS + 2) / 2 :=
    Int.tdiv_eq_ediv (by omega) (by norm_num)
  have e2 : Int.tdiv ((c.bw : Int) + 3 * c.OPS) 2 = ((c.bw : Int) + 3 * c.OPS) / 2 :=
    Int.tdiv_eq_ediv (by omega) (by norm_num)
  have e3 : Int.tdiv ((c.bh : Int) - c.OPS + 2) 2 = ((c.bh : Int) - c.OPS + 2) / 2 :=
    Int.tdiv_eq_ediv (by omega) (by norm_num)
  have e4 : Int.tdiv ((c.bh : Int) + 3 * c.OPS) 2 = ((c.bh : Int) + 3 * c.OPS) / 2 :=
    Int.tdiv_eq_ediv (by omega) (by norm_num)
  rw [e1, e2, e3, e4]
  omega

/-- Witness for C8 (amended) at the canonical configuration. -/
theorem C8_down_start_minimal_witness :
    (downBnds cW 0).ux - (downBnds cW 0).lx + 1 = 2 * (cW.OPS : Int) :=
  (C8_down_start_minimal cW (by decide) (by decide) (by decide)).1

end Sweep

namespace Sweep

/-- Claim C5: for every initial global-array content, running the whole-grid
`UpPyramid` launch then the whole-grid `DownPyramid` launch with the identity
per-cell update leaves every grid cell's value unchanged at every produced
time level: every location is either untouched, or is the time-level `t ≥ 1`
slot of an in-range cell and holds exactly that cell's time-level-0 value. -/
theorem C5_identity_roundtrip (c : Cfg) (hc : GoodCfg c) (sh0 g0 : Buf) :
    ∀ a, runDownAll c idStep sh0 (runUpAll c idStep sh0 g0) a = g0 a ∨
      ∃ x y v t, x < Mxlen c ∧ y < Mlen c ∧ v < c.NV ∧ 1 ≤ t ∧
        a = addr c x y v t ∧
        runDownAll c idStep sh0 (runUpAll c idStep sh0 g0) a =
          g0 (addr c x y v 0) :=
  runDownAll_id_produced c hc g0 sh0 _
    (runUpAll_id_produced c hc g0 sh0 g0 (fun _ => Or.inl rfl))

/-- Witness for C5 at the canonical configuration: the level-1 slot of the
cell owned by thread `(0, 0)` after both stages. -/
theorem C5_identity_roundtrip_witness :
    runDownAll cW idStep (fun _ => 0) (runUpAll cW idStep (fun _ => 0)
        (fun a => (a : Int))) (addr cW 1 1 0 1) = (fun a => (a : Int)) (addr cW 1 1 0 1) ∨
      ∃ x y v t, x < Mxlen cW ∧ y < Mlen cW ∧ v < cW.NV ∧ 1 ≤ t ∧
        addr cW 1 1 0 1 = addr cW x y v t ∧
        runDownAll cW idStep (fun _ => 0) (runUpAll cW idStep (fun _ => 0)
          (fun a => (a : Int))) (addr cW 1 1 0 1) =
          (fun a => (a : Int)) (addr cW x y v 0) :=
  C5_identity_roundtrip cW ⟨by decide, by decide, by decide⟩ (fun _ => 0)
    (fun a => (a : Int)) (addr cW 1 1 0 1)

/-- Claim C10: in `DownPyramid`, every thread's interior tile cell is seeded
from the global array at time level 0 (the copy at `sweep.h` line 330 reads
`gid + i*VARS` with no time-level term), while the halo cells are seeded by
`edge_comm` at time level `MPSS` (line 318); when `MPSS ≠ 0` the two seeds
of the same invocation come from the two different levels `0 ≠ MPSS`. -/
theorem C10_down_seed_levels (c : Cfg) (hc : GoodCfg c) (hsq : c.bw = c.bh)
    (hthr : c.bh + 2 * c.OPS ≤ c.bw * c.bh) (bix biy : Nat) (sh0 st : Buf) :
    (∀ tx ty i, tx < c.bw → ty < c.bh → i < c.NV →
      downPyramidSeed c bix biy sh0 st (saddr c (tx + c.OPS) (ty + c.OPS) i) =
        st (addr c (c.OPS + tx + c.bw * bix) (c.OPS + ty + c.bh * biy) i 0)) ∧
    (∀ x y v, x < c.bw + 2 * c.OPS → y < c.bh + 2 * c.OPS → v < c.NV →
      (x < c.OPS ∨ c.bw + c.OPS ≤ x ∨ y < c.OPS ∨ c.bh + c.OPS ≤ y) →
      downPyramidSeed c bix biy sh0 st (saddr c x y v) =
        st (addr c (c.bw * bix + x) (c.bh * biy + y) v c.MPSS)) ∧
    (c.MPSS ≠ 0 → (0 : Nat) ≠ c.MPSS) := by
  refine ⟨?_, ?_, fun h => h.symm⟩
  · intro tx ty i htx hty hi
    exact downPyramidSeed_val c hc bix biy sh0 st htx hty hi
  · intro x y v hx hy hv hHalo
    exact downPyramidSeed_halo c hc hsq hthr bix biy sh0 st hx hy hv hHalo

/-- Witness for C10 at the canonical configuration (`MPSS = 2`): thread
`(0,0)`'s cell is seeded from level 0 while halo cell `(0,1)` is seeded from
level `MPSS`, two different levels. -/
theorem C10_down_seed_levels_witness :
    downPyramidSeed cW 0 0 (fun _ => 0) (fun a => (a : Int))
        (saddr cW (0 + cW.OPS) (0 + cW.OPS) 0) =
      (fun a => (a : Int))
        (addr cW (cW.OPS + 0 + cW.bw * 0) (cW.OPS + 0 + cW.bh * 0) 0 0) ∧
    downPyramidSeed cW 0 0 (fun _ => 0) (fun a => (a : Int)) (saddr cW 0 1 0) =
      (fun a => (a : Int)) (addr cW (cW.bw * 0 + 0) (cW.bh * 0 + 1) 0 cW.MPSS) := by
  have h := C10_down_seed_levels cW ⟨by decide, by decide, by decide⟩ rfl
    (by decide) 0 0 (fun _ => 0) (fun a => (a : Int))
  exact ⟨h.1 0 0 0 (by decide) (by decide) (by decide),
    h.2.1 0 1 0 (by decide) (by decide) (by decide) (Or.inl (by decide))⟩

/-- Claim C7: the standalone `DownPyramid` performs its Edge Exchange at the
starting time level `MPSS` — the run-wide configuration value the host
(caller) sets in constant memory, not a literal in the kernel — then grows
the valid region from the center outward by one `OPS`-ring per side per
step, writing successive time levels `1 … MPSS` (levels outside that band
are untouched, and each step's write-back lands at level `k+1`, equal to the
re-seeded tile cell). -/
theorem C7_downpyramid_stage (c : Cfg) (hc : GoodCfg c) (hsq : c.bw = c.bh)
    (hthr : c.bh + 2 * c.OPS ≤ c.bw * c.bh) (bix biy : Nat)
    (hbx : bix < c.gx) (hby : biy < c.gy) (stepFn : Buf → Nat → Buf)
    (sh0 st : Buf) :
    (∀ x y v, x < c.bw + 2 * c.OPS → y < c.bh + 2 * c.OPS → v < c.NV →
      (x < c.OPS ∨ c.bw + c.OPS ≤ x ∨ y < c.OPS ∨ c.bh + c.OPS ≤ y) →
      downPyramidSeed c bix biy sh0 st (saddr c x y v) =
        st (addr c (c.bw * bix + x) (c.bh * biy + y) v c.MPSS)) ∧
    (∀ k, (downBnds c (k + 1)).lx = (downBnds c k).lx - c.OPS ∧
      (downBnds c (k + 1)).ly = (downBnds c k).ly - c.OPS ∧
      (downBnds c (k + 1)).ux = (downBnds c k).ux + c.OPS ∧
      (downBnds c (k + 1)).uy = (downBnds c k).uy + c.OPS) ∧
    (∀ x y v t, x < Mxlen c → y < Mlen c → v < c.NV →
      (t = 0 ∨ c.MPSS < t) →
      (DownPyramid c bix biy stepFn sh0 st).2 (addr c x y v t) =
        st (addr c x y v t)) ∧
    (∀ k tx ty j, k < c.MPSS → tx < c.bw → ty < c.bh → j < c.NV →
      inRegInc (downBnds c k) (tx + c.OPS) (ty + c.OPS) = true →
      (loopSweep c bix biy stepFn (fun m => inRegInc (downBnds c m))
          (fun m => m) (k + 1) (downPyramidSeed c bix biy sh0 st, st)).2
        (addr c (c.OPS + tx + c.bw * bix) (c.OPS + ty + c.bh * biy) j (k + 1)) =
      (loopSweep c bix biy stepFn (fun m => inRegInc (downBnds c m))
          (fun m => m) (k + 1) (downPyramidSeed c bix biy sh0 st, st)).1
        (saddr c (tx + c.OPS) (ty + c.OPS) j)) := by
  refine ⟨?_, ?_, ?_, ?_⟩
  · intro x y v hx hy hv hHalo
    exact downPyramidSeed_halo c hc hsq hthr bix biy sh0 st hx hy hv hHalo
  · intro k
    exact ⟨rfl, rfl, rfl, rfl⟩
  · intro x y v t hx hy hv ht
    exact loopSweep_state_pres c hc bix biy hbx hby stepFn _ _ c.MPSS _
      hx hy hv (fun m hm => by omega)
  · intro k tx ty j hk htx hty hj hreg
    exact (sweepStepK_sync c hc bix biy hbx hby stepFn
      (inRegInc (downBnds c k)) k _ htx hty hj hreg).symm

/-- Witness for C7 at the canonical configuration: halo seeding at level
`MPSS = 2` and preservation of level 0. -/
theorem C7_downpyramid_stage_witness :
    downPyramidSeed cW 0 0 (fun _ => 0) (fun a => (a : Int)) (saddr cW 0 1 0) =
      (fun a => (a : Int)) (addr cW (cW.bw * 0 + 0) (cW.bh * 0 + 1) 0 cW.MPSS) ∧
    (DownPyramid cW 0 0 idStep (fun _ => 0) (fun a => (a : Int))).2
        (addr cW 1 1 0 0) = (fun a => (a : Int)) (addr cW 1 1 0 0) := by
  have h := C7_downpyramid_stage cW ⟨by decide, by decide, by decide⟩ rfl
    (by decide) 0 0 (by decide) (by decide) idStep (fun _ => 0) (fun a => (a : Int))
  exact ⟨h.1 0 1 0 (by decide) (by decide) (by decide) (Or.inl (by decide)),
    h.2.2.1 1 1 0 0 (by decide) (by decide) (by decide) (Or.inl rfl)⟩

end Sweep

namespace Sweep

/-- Claim C4: in `Octahedron`, the down half performs no edge exchange and
seeds every interior tile cell from global time level 0 (halo cells keep the
reset zeros), and its write-backs land exactly at levels `1 … MPSS` (levels
outside that band are untouched; at each step `k < MPSS` the in-region
write-back lands at level `k+1`); the up half seeds the tile via Edge
Exchange and interior copy at level `MPSS` from the state the down half
left, and its write-backs land exactly at levels `MPSS+1 … 2*MPSS-1`. -/
theorem C4_octahedron_time_levels (c : Cfg) (hc : GoodCfg c)
    (hsq : c.bw = c.bh) (hthr : c.bh + 2 * c.OPS ≤ c.bw * c.bh)
    (bix biy : Nat) (hbx : bix < c.gx) (hby : biy < c.gy)
    (stepFn : Buf → Nat → Buf) (sh0 st : Buf) :
    (∀ tx ty i, tx < c.bw → ty < c.bh → i < c.NV →
      octDownSeed c bix biy sh0 st (saddr c (tx + c.OPS) (ty + c.OPS) i) =
        st (addr c (c.OPS + tx + c.bw * bix) (c.OPS + ty + c.bh * biy) i 0)) ∧
    (∀ x y v, x < c.bw + 2 * c.OPS → y < c.bh + 2 * c.OPS → v < c.NV →
      (x < c.OPS ∨ c.bw + c.OPS ≤ x ∨ y < c.OPS ∨ c.bh + c.OPS ≤ y) →
      octDownSeed c bix biy sh0 st (saddr c x y v) = 0) ∧
    (∀ x y v t, x < Mxlen c → y < Mlen c → v < c.NV →
      (t = 0 ∨ c.MPSS < t) →
      (octDown c bix biy stepFn sh0 st).2 (addr c x y v t) =
        st (addr c x y v t)) ∧
    (∀ k tx ty j, k < c.MPSS → tx < c.bw → ty < c.bh → j < c.NV →
      inRegInc (downBnds c k) (tx + c.OPS) (ty + c.OPS) = true →
      (loopSweep c bix biy stepFn (fun m => inRegInc (downBnds c m))
          (fun m => m) (k + 1) (octDownSeed c bix biy sh0 st, st)).2
        (addr c (c.OPS + tx + c.bw * bix) (c.OPS + ty + c.bh * biy) j (k + 1)) =
      (loopSweep c bix biy stepFn (fun m => inRegInc (downBnds c m))
          (fun m => m) (k + 1) (octDownSeed c bix biy sh0 st, st)).1
        (saddr c (tx + c.OPS) (ty + c.OPS) j)) ∧
    (∀ tx ty i, tx < c.bw → ty < c.bh → i < c.NV →
      octUpSeed c bix biy stepFn sh0 st (saddr c (tx + c.OPS) (ty + c.OPS) i) =
        (octDown c bix biy stepFn sh0 st).2
          (addr c (c.OPS + tx + c.bw * bix) (c.OPS + ty + c.bh * biy) i c.MPSS)) ∧
    (∀ x y v, x < c.bw + 2 * c.OPS → y < c.bh + 2 * c.OPS → v < c.NV →
      (x < c.OPS ∨ c.bw + c.OPS ≤ x ∨ y < c.OPS ∨ c.bh + c.OPS ≤ y) →
      octUpSeed c bix biy stepFn sh0 st (saddr c x y v) =
        (octDown c bix biy stepFn sh0 st).2
          (addr c (c.bw * bix + x) (c.bh * biy + y) v c.MPSS)) ∧
    (∀ x y v t, x < Mxlen c → y < Mlen c → v < c.NV →
      (t ≤ c.MPSS ∨ 2 * c.MPSS - 1 < t) →
      (Octahedron c bix biy stepFn sh0 st).2 (addr c x y v t) =
        (octDown c bix biy stepFn sh0 st).2 (addr c x y v t)) ∧
    (∀ m tx ty j, m < c.MPSS - 1 → tx < c.bw → ty < c.bh → j < c.NV →
      inRegExc (upBnds c m) (tx + c.OPS) (ty + c.OPS) = true →
      (loopSweep c bix biy stepFn (fun m' => inRegExc (upBnds c m'))
          (fun m' => c.MPSS + m') (m + 1)
          (octUpSeed c bix biy stepFn sh0 st,
            (octDown c bix biy stepFn sh0 st).2)).2
        (addr c (c.OPS + tx + c.bw * bix) (c.OPS + ty + c.bh * biy) j
          (c.MPSS + m + 1)) =
      (loopSweep c bix biy stepFn (fun m' => inRegExc (upBnds c m'))
          (fun m' => c.MPSS + m') (m + 1)
          (octUpSeed c bix biy stepFn sh0 st,
            (octDown c bix biy stepFn sh0 st).2)).1
        (saddr c (tx + c.OPS) (ty + c.OPS) j)) := by
  refine ⟨?_, ?_, ?_, ?_, ?_, ?_, ?_, ?_⟩
  · intro tx ty i htx hty hi
    exact octDownSeed_val c hc bix biy sh0 st htx hty hi
  · intro x y v hx hy hv hHalo
    exact octDownSeed_halo_zero c hc hthr bix biy sh0 st hx hy hv hHalo
  · intro x y v t hx hy hv ht
    exact loopSweep_state_pres c hc bix biy hbx hby stepFn _ _ c.MPSS _
      hx hy hv (fun m hm => by omega)
  · intro k tx ty j hk htx hty hj hreg
    exact (sweepStepK_sync c hc bix biy hbx hby stepFn
      (inRegInc (downBnds c k)) k _ htx hty hj hreg).symm
  · intro tx ty i htx hty hi
    exact octUpSeed_val c hc bix biy stepFn sh0 st htx hty hi
  · intro x y v hx hy hv hHalo
    exact octUpSeed_halo c hc hsq hthr bix biy stepFn sh0 st hx hy hv hHalo
  · intro x y v t hx hy hv ht
    exact loopSweep_state_pres c hc bix biy hbx hby stepFn _ _ (c.MPSS - 1) _
      hx hy hv (fun m hm => by omega)
  · intro m tx ty j hm htx hty hj hreg
    exact (sweepStepK_sync c hc bix biy hbx hby stepFn
      (inRegExc (upBnds c m)) (c.MPSS + m) _ htx hty hj hreg).symm

/-- Witness for C4 at the canonical configuration: the down seed of thread
`(0,0)` comes from level 0, halo cell `(0,1)` stays zero, and level 0 is
untouched by the down half. -/
theorem C4_octahedron_time_levels_witness :
    octDownSeed cW 0 0 (fun _ => 0) (fun a => (a : Int))
        (saddr cW (0 + cW.OPS) (0 + cW.OPS) 0) =
      (fun a => (a : Int))
        (addr cW (cW.OPS + 0 + cW.bw * 0) (cW.OPS + 0 + cW.bh * 0) 0 0) ∧
    octDownSeed cW 0 0 (fun _ => 0) (fun a => (a : Int)) (saddr cW 0 1 0) = 0 ∧
    (octDown cW 0 0 idStep (fun _ => 0) (fun a => (a : Int))).2
        (addr cW 1 1 0 0) = (fun a => (a : Int)) (addr cW 1 1 0 0) := by
  have h := C4_octahedron_time_levels cW ⟨by decide, by decide, by decide⟩ rfl
    (by decide) 0 0 (by decide) (by decide) idStep (fun _ => 0) (fun a => (a : Int))
  exact ⟨h.1 0 0 0 (by decide) (by decide) (by decide),
    h.2.1 0 1 0 (by decide) (by decide) (by decide) (Or.inl (by decide)),
    h.2.2.1 1 1 0 0 (by decide) (by decide) (by decide) (Or.inl rfl)⟩

end Sweep
